import Mathlib

/-!
# A verification development for the `store` library

This file gives a shallow embedding, in Lean 4, of the core of the `store`
in-memory transactional record store (`src/store/*.py`), and proves or
refutes a list of claims about it.

Modelling conventions:

* Python values that can appear as record fields are modelled by the
  inductive type `Value` (integers, booleans, strings, `None`, lists,
  sets, dicts, tuples, and an opaque constructor `other` carrying its
  Python hashability, standing for any foreign object).
* Python dicts are modelled as association lists with insertion-order
  update semantics (`Record.set`, `Record.updateWith`); Python sets of
  primary keys are modelled as duplicate-free lists with `setAdd` /
  `setRemove` (membership, not order, is ever relied upon).
* The `BTrees.OOBTree.BTree` ordered map is modelled as an association
  list kept sorted by a total comparison `Value.vlt`.  On values of the
  same scalar type `Value.vlt` agrees with the Python `<` used by the
  BTree and by `bisect`; across types Python `<` raises `TypeError`
  while `Value.vlt` totalises the order by constructor rank (claims are
  only instantiated at homogeneously-typed index keys, where the two
  agree).
* Fallible Python code (raised exceptions) is modelled with `Option` /
  `Except`: `none` / `.error` means the call raised.  Where the source
  mutates state before raising, the model returns the error alone; no
  claim below depends on the partially-mutated state of an operation
  that raised.
-/

set_option maxRecDepth 2000

namespace StoreSpec

/-- Model of a Python value usable as a record field.  `other b` stands
for a foreign object whose `isinstance(-, Hashable)` test yields `b`. -/
inductive Value where
  | none
  | bool (b : Bool)
  | int (n : Int)
  | str (s : String)
  | list (xs : List Value)
  | set (xs : List Value)
  | dict (kvs : List (Value × Value))
  | tuple (xs : List Value)
  | other (hashable : Bool)
deriving Repr

namespace Value

mutual

/-- Structural boolean equality on values (the nested inductive prevents
`deriving DecidableEq`, so it is written out by hand). -/
def beq : Value → Value → Bool
  | .none, .none => true
  | .bool a, .bool b => a == b
  | .int a, .int b => a == b
  | .str a, .str b => a == b
  | .list a, .list b => beqL a b
  | .set a, .set b => beqL a b
  | .dict a, .dict b => beqP a b
  | .tuple a, .tuple b => beqL a b
  | .other a, .other b => a == b
  | _, _ => false
termination_by structural a => a

/-- Elementwise equality of value lists. -/
def beqL : List Value → List Value → Bool
  | [], [] => true
  | a :: as, b :: bs => beq a b && beqL as bs
  | _, _ => false
termination_by structural xs => xs

/-- Elementwise equality of key-value pair lists. -/
def beqP : List (Value × Value) → List (Value × Value) → Bool
  | [], [] => true
  | (k, v) :: as, (k2, v2) :: bs => beq k k2 && beq v v2 && beqP as bs
  | _, _ => false
termination_by structural xs => xs

end

mutual

theorem beq_refl : ∀ a : Value, beq a a = true
  | .none => rfl
  | .bool a => by simp [beq]
  | .int a => by simp [beq]
  | .str a => by simp [beq]
  | .list a => by simp [beq, beqL_refl a]
  | .set a => by simp [beq, beqL_refl a]
  | .dict a => by simp [beq, beqP_refl a]
  | .tuple a => by simp [beq, beqL_refl a]
  | .other a => by simp [beq]

theorem beqL_refl : ∀ xs : List Value, beqL xs xs = true
  | [] => rfl
  | a :: as => by simp [beqL, beq_refl a, beqL_refl as]

theorem beqP_refl : ∀ kvs : List (Value × Value), beqP kvs kvs = true
  | [] => rfl
  | (k, v) :: as => by simp [beqP, beq_refl k, beq_refl v, beqP_refl as]

end

mutual

theorem beq_sound : ∀ a b : Value, beq a b = true → a = b
  | .none, b => by cases b <;> simp [beq]
  | .bool a, b => by cases b <;> simp [beq]
  | .int a, b => by cases b <;> simp [beq]
  | .str a, b => by cases b <;> simp [beq]
  | .list a, b => by
      cases b <;> simp [beq]
      exact fun h => beqL_sound a _ h
  | .set a, b => by
      cases b <;> simp [beq]
      exact fun h => beqL_sound a _ h
  | .dict a, b => by
      cases b <;> simp [beq]
      exact fun h => beqP_sound a _ h
  | .tuple a, b => by
      cases b <;> simp [beq]
      exact fun h => beqL_sound a _ h
  | .other a, b => by cases b <;> simp [beq]

theorem beqL_sound : ∀ xs ys : List Value, beqL xs ys = true → xs = ys
  | [], [] => fun _ => rfl
  | [], _ :: _ => by simp [beqL]
  | _ :: _, [] => by simp [beqL]
  | a :: as, b :: bs => by
      simp only [beqL, Bool.and_eq_true]
      exact fun ⟨h1, h2⟩ => by
        rw [beq_sound a b h1, beqL_sound as bs h2]

theorem beqP_sound : ∀ xs ys : List (Value × Value), beqP xs ys = true → xs = ys
  | [], [] => fun _ => rfl
  | [], _ :: _ => by simp [beqP]
  | _ :: _, [] => by simp [beqP]
  | (k, v) :: as, (k2, v2) :: bs => by
      simp only [beqP, Bool.and_eq_true]
      exact fun ⟨⟨h1, h2⟩, h3⟩ => by
        rw [beq_sound k k2 h1, beq_sound v v2 h2, beqP_sound as bs h3]

end

instance : BEq Value := ⟨beq⟩

instance : DecidableEq Value := fun a b =>
  decidable_of_iff (beq a b = true)
    ⟨beq_sound a b, fun h => h ▸ beq_refl a⟩

instance : LawfulBEq Value where
  eq_of_beq h := beq_sound _ _ h
  rfl := beq_refl _

/-- Constructor rank, used to totalise the comparison across types. -/
def rank : Value → Nat
  | .none => 0
  | .bool _ => 1
  | .int _ => 2
  | .str _ => 3
  | .list _ => 4
  | .set _ => 5
  | .dict _ => 6
  | .tuple _ => 7
  | .other _ => 8

/-- Lexicographic comparison of character lists by code point. -/
def charListLt : List Char → List Char → Bool
  | _, [] => false
  | [], _ :: _ => true
  | c :: s, d :: t =>
      if c.toNat < d.toNat then true
      else if d.toNat < c.toNat then false
      else charListLt s t

/-- Python string `<`: lexicographic comparison by Unicode code point. -/
def strLt (a b : String) : Bool :=
  charListLt a.data b.data

mutual

/-- Total strict comparison on values.  On two ints or two strings it is
Python's `<`; tuples compare lexicographically as in Python; remaining
mixed cases (where Python `<` raises `TypeError`) are ordered by
constructor rank. -/
def vlt : Value → Value → Bool
  | .int a, .int b => a < b
  | .str a, .str b => strLt a b
  | .bool a, .bool b => !a && b
  | .tuple a, .tuple b => vltList a b
  | v, w => rank v < rank w
termination_by structural a => a

/-- Lexicographic comparison of value lists (Python tuple `<`). -/
def vltList : List Value → List Value → Bool
  | _, [] => false
  | [], _ :: _ => true
  | a :: s, b :: t => vlt a b || (a == b && vltList s t)
termination_by structural a => a

end

end Value

/-- Insert into a list kept sorted by `Value.vlt` (stable: equal keys go
after existing ones, as `sorted` is stable in Python). -/
def insertSortedBy (lt : α → α → Bool) (a : α) : List α → List α
  | [] => [a]
  | b :: rest => if lt a b then a :: b :: rest else b :: insertSortedBy lt a rest

/-- Insertion sort by a strict comparison; models Python `sorted`. -/
def sortBy (lt : α → α → Bool) : List α → List α
  | [] => []
  | a :: rest => insertSortedBy lt a (sortBy lt rest)

/-- Python comparison of the `(key, coerced_value)` pairs produced in
`get_hashable` for dicts: tuples compare componentwise. -/
def pairLt (p q : Value × Value) : Bool :=
  Value.vlt p.1 q.1 || (p.1 == q.1 && Value.vlt p.2 q.2)

/-- Python `is_hashable` from `src/store/util.py`: `isinstance(obj, Hashable)`.
Note that a Python tuple is an instance of `Hashable` regardless of its
elements, while dicts, lists and sets never are. -/
def is_hashable : Value → Bool
  | .dict _ => false
  | .list _ => false
  | .set _ => false
  | .other h => h
  | _ => true

mutual

/-- Python `get_hashable` from `src/store/util.py`.  Dicts become the tuple of
their `(key, get_hashable(value))` pairs sorted by pair comparison;
lists become tuples of coerced elements; sets become sorted tuples of
coerced elements; anything else is returned unchanged when hashable and
raises `NotHashable` (modelled by `none`) otherwise. -/
def get_hashable : Value → Option Value
  | .dict kvs =>
      match get_hashable_pairs kvs with
      | some ps =>
          some (.tuple ((sortBy pairLt ps).map (fun p => .tuple [p.1, p.2])))
      | Option.none => Option.none
  | .list xs =>
      match get_hashable_list xs with
      | some ys => some (.tuple ys)
      | Option.none => Option.none
  | .set xs =>
      match get_hashable_list xs with
      | some ys => some (.tuple (sortBy Value.vlt ys))
      | Option.none => Option.none
  | v => if is_hashable v then some v else Option.none
termination_by structural v => v

/-- Coerce each element of a list, failing if any element fails. -/
def get_hashable_list : List Value → Option (List Value)
  | [] => some []
  | x :: xs =>
      match get_hashable x, get_hashable_list xs with
      | some y, some ys => some (y :: ys)
      | _, _ => Option.none
termination_by structural l => l

/-- Coerce the values (not the keys) of a dict's items, as the source
builds `(k, get_hashable(v)) for k, v in value.items()`. -/
def get_hashable_pairs : List (Value × Value) → Option (List (Value × Value))
  | [] => some []
  | kv :: kvs =>
      match get_hashable kv.2, get_hashable_pairs kvs with
      | some w, some ps => some ((kv.1, w) :: ps)
      | _, _ => Option.none
termination_by structural l => l

end

/-! ## Records and dict semantics -/

/-- A record: a Python dict from field name to value, in insertion order.
Keys are unique (all operations below preserve uniqueness). -/
abbrev Record := List (String × Value)

namespace Record

/-- Python `record[k]` / `record.get(k)` lookup. -/
def lookup (r : Record) (k : String) : Option Value :=
  match r with
  | [] => Option.none
  | (k2, v) :: rest => if k2 = k then some v else lookup rest k

/-- Python `record.get(k)` with Python's `None` default. -/
def getD (r : Record) (k : String) : Value :=
  (r.lookup k).getD .none

/-- Python `record[k] = v`: replace in place if present, else append (Python
dict insertion-order semantics). -/
def set (r : Record) (k : String) (v : Value) : Record :=
  match r with
  | [] => [(k, v)]
  | (k2, w) :: rest => if k2 = k then (k2, v) :: rest else (k2, w) :: set rest k v

/-- Python `dst.update(src)`: apply each item of `src` to `dst` in order. -/
def updateWith (dst src : Record) : Record :=
  src.foldl (fun acc kv => acc.set kv.1 kv.2) dst

/-- Python `record.keys()` in order. -/
def fields (r : Record) : List String := r.map (·.1)

end Record

/-! ## Python sets of primary keys -/

/-- Python `s.add(x)` on a Python set, modelled on duplicate-free lists. -/
def setAdd (l : List Value) (x : Value) : List Value :=
  if x ∈ l then l else l ++ [x]

/-- Python `s.discard(x)` on a Python set. -/
def setRemove (l : List Value) (x : Value) : List Value :=
  l.filter (· ≠ x)

/-- Set union of a list of posting sets (`util.union`). -/
def unionAll (ls : List (List Value)) : List Value :=
  ls.foldl (fun acc l => acc ++ l.filter (· ∉ acc)) []

/-! ## The per-field ordered map (`BTrees.OOBTree.BTree`)

An index maps a coerced field value to its posting set of primary keys.
The key list is kept sorted by `Value.vlt`, as a BTree iterates its keys
in ascending order. -/

abbrev Index := List (Value × List Value)

namespace Index

/-- Python `index.get(key)`. -/
def get (idx : Index) (k : Value) : Option (List Value) :=
  match idx with
  | [] => Option.none
  | (k2, ps) :: rest => if k2 = k then some ps else get rest k

/-- Python `key in index`. -/
def hasKey (idx : Index) (k : Value) : Bool :=
  (idx.get k).isSome

/-- Replace the posting set at an existing key. -/
def setPosting (idx : Index) (k : Value) (ps : List Value) : Index :=
  match idx with
  | [] => [(k, ps)]
  | (k2, q) :: rest =>
      if k2 = k then (k2, ps) :: rest else (k2, q) :: setPosting rest k ps

/-- Python `if value not in index: index[value] = set()` followed by
`index[value].add(pkey)` (`Indexer.insert`).  A new key is inserted at
its sorted position, as the BTree keeps keys ordered. -/
def addPosting (idx : Index) (k : Value) (p : Value) : Index :=
  match idx.get k with
  | some ps => idx.setPosting k (setAdd ps p)
  | Option.none => insertSortedBy (fun a b => Value.vlt a.1 b.1) (k, [p]) idx

/-- Python `del index[key]`. -/
def delKey (idx : Index) (k : Value) : Index :=
  idx.filter (fun kv => kv.1 ≠ k)

/-- Python `list(index.keys())`: ascending key list. -/
def keys (idx : Index) : List Value := idx.map (·.1)

end Index

/-! ## The Index Manager (`src/store/indexer.py`, class `Indexer`) -/

/-- Python `Indexer` state: `keys` maps a primary key to the set of field names
indexed for it (a `defaultdict(set)`); `indices` maps a field name to
its ordered index. -/
structure Indexer where
  pkey_name : String
  keys : List (Value × List String)
  indices : List (String × Index)
deriving Repr, DecidableEq

namespace Indexer

/-- Lookup in the `keys` map without defaulting (`dict.get`). -/
def keysLookup (m : List (Value × List String)) (p : Value) : Option (List String) :=
  match m with
  | [] => Option.none
  | (q, fs) :: rest => if q = p then some fs else keysLookup rest p

/-- Defaulted lookup (`defaultdict(set)` read). -/
def keysGet (m : List (Value × List String)) (p : Value) : List String :=
  (keysLookup m p).getD []

/-- Write-through for the `keys` map. -/
def keysSet (m : List (Value × List String)) (p : Value) (fs : List String) :
    List (Value × List String) :=
  match m with
  | [] => [(p, fs)]
  | (q, g) :: rest => if q = p then (q, fs) :: rest else (q, g) :: keysSet rest p fs

/-- Python `del self.keys[pkey]`. -/
def keysDel (m : List (Value × List String)) (p : Value) : List (Value × List String) :=
  m.filter (fun qg => qg.1 ≠ p)

/-- Lookup in the `indices` dict. -/
def indicesGet (m : List (String × Index)) (k : String) : Option Index :=
  match m with
  | [] => Option.none
  | (k2, idx) :: rest => if k2 = k then some idx else indicesGet rest k

/-- Write-through for the `indices` dict (insertion-ordered). -/
def indicesSet (m : List (String × Index)) (k : String) (idx : Index) :
    List (String × Index) :=
  match m with
  | [] => [(k, idx)]
  | (k2, j) :: rest =>
      if k2 = k then (k2, idx) :: rest else (k2, j) :: indicesSet rest k idx

/-- Python `del self.indices[key]`. -/
def indicesDel (m : List (String × Index)) (k : String) : List (String × Index) :=
  m.filter (fun kj => kj.1 ≠ k)

/-- Union of two field-name sets (`self.keys[pkey] |= keys`). -/
def fieldUnion (a b : List String) : List String :=
  a ++ b.filter (· ∉ a)

/-- The loop body of `Indexer.insert`: for each field name, coerce the
record's value (`record.get(key)`, defaulting to `None`), lazily create
the index and add the primary key to the posting set at the coerced
value.  A coercion failure raises `NotHashable` (modelled `none`). -/
def insertLoop (ix : Indexer) (pkey : Value) (record : Record) :
    List String → Option Indexer
  | [] => some ix
  | k :: rest =>
      match get_hashable (record.getD k) with
      | Option.none => Option.none
      | some v =>
          let index := (indicesGet ix.indices k).getD []
          let index := index.addPosting v pkey
          insertLoop { ix with indices := indicesSet ix.indices k index } pkey record rest

/-- Python `Indexer.insert(record, keys)`: look up the primary key
(`record[self.pkey_name]`, a `KeyError` if absent), merge the field
names into `self.keys[pkey]`, then run the insertion loop. -/
def insert (ix : Indexer) (record : Record) (ks : List String) : Option Indexer :=
  match record.lookup ix.pkey_name with
  | Option.none => Option.none
  | some pkey =>
      let ks := ks.dedup
      let ix := { ix with keys := keysSet ix.keys pkey (fieldUnion (keysGet ix.keys pkey) ks) }
      insertLoop ix pkey record ks

/-- The loop body of `Indexer.remove`: for each field name, skip absent
indices, read the old coerced value (`record[key]`, a `KeyError` if
absent), discard the primary key from its posting set, drop the key when
its posting set empties, and drop the whole index when it empties. -/
def removeLoop (ix : Indexer) (pkey : Value) (record : Record) :
    List String → Option Indexer
  | [] => some ix
  | k :: rest =>
      match indicesGet ix.indices k with
      | Option.none => removeLoop ix pkey record rest
      | some index =>
          match record.lookup k with
          | Option.none => Option.none
          | some raw =>
              match get_hashable raw with
              | Option.none => Option.none
              | some v =>
                  match index.get v with
                  | Option.none => removeLoop ix pkey record rest
                  | some ps =>
                      if ps.isEmpty then removeLoop ix pkey record rest
                      else
                        let ps := setRemove ps pkey
                        let index :=
                          if ps.isEmpty then index.delKey v
                          else index.setPosting v ps
                        let indices :=
                          if index.isEmpty then indicesDel ix.indices k
                          else indicesSet ix.indices k index
                        removeLoop { ix with indices := indices } pkey record rest

/-- Python `Indexer.remove(record, keys=None)`: with no (or empty) `keys`, fall
back on `self.keys.get(pkey).copy()` — an `AttributeError` (modelled
`none`) when the primary key is untracked; then subtract the fields from
`self.keys[pkey]`, run the removal loop, and drop the `keys` row when it
empties. -/
def remove (ix : Indexer) (record : Record) (keys : Option (List String)) :
    Option Indexer :=
  match record.lookup ix.pkey_name with
  | Option.none => Option.none
  | some pkey =>
      let ks0 := (keys.getD []).dedup
      let ksOpt := if ks0.isEmpty then keysLookup ix.keys pkey else some ks0
      match ksOpt with
      | Option.none => Option.none
      | some ks =>
          let step : Option Indexer :=
            if ks.isEmpty then some ix
            else
              let ix := { ix with
                keys := keysSet ix.keys pkey ((keysGet ix.keys pkey).filter (· ∉ ks)) }
              removeLoop ix pkey record ks
          match step with
          | Option.none => Option.none
          | some ix =>
              if (keysGet ix.keys pkey).isEmpty then
                some { ix with keys := keysDel ix.keys pkey }
              else some ix

/-- Python `Indexer.update(old_state, record, keys)`: partition the fields into
those already indexed for the primary key (remove old then insert new)
and the genuinely new ones (insert only). -/
def update (ix : Indexer) (old_state record : Record) (ks : List String) :
    Option Indexer :=
  match record.lookup ix.pkey_name with
  | Option.none => Option.none
  | some pkey =>
      let ks := ks.dedup
      let stale := (keysGet ix.keys pkey).filter (· ∈ ks)
      let newKeys := ks.filter (· ∉ keysGet ix.keys pkey)
      let step : Option Indexer :=
        if stale.isEmpty then some ix
        else
          match ix.remove old_state (some stale) with
          | Option.none => Option.none
          | some ix => ix.insert record stale
      match step with
      | Option.none => Option.none
      | some ix => ix.insert record newKeys

end Indexer

/-! ## The Store (`src/store/store.py`) -/

/-- Store state: the primary table and the Index Manager.  The identity
map (a weak cache of live handles) and the reentrant lock are not part
of the functional state and are not modelled; `get` is modelled as
returning the current record content. -/
structure Store where
  pkey_name : String
  records : List (Value × Record)
  indexer : Indexer
deriving Repr, DecidableEq

namespace Store

/-- A fresh store (`Store(pkey)`). -/
def empty (pk : String) : Store :=
  ⟨pk, [], ⟨pk, [], []⟩⟩

/-- Lookup in the primary table. -/
def recLookup (m : List (Value × Record)) (p : Value) : Option Record :=
  match m with
  | [] => Option.none
  | (q, r) :: rest => if q = p then some r else recLookup rest p

/-- Python `self.records[pkey] = record`. -/
def recSet (m : List (Value × Record)) (p : Value) (r : Record) :
    List (Value × Record) :=
  match m with
  | [] => [(p, r)]
  | (q, s) :: rest => if q = p then (q, r) :: rest else (q, s) :: recSet rest p r

/-- Python `self.records.pop(pkey)`. -/
def recDel (m : List (Value × Record)) (p : Value) : List (Value × Record) :=
  m.filter (fun qr => qr.1 ≠ p)

/-- Python `pkey in store` for a primary-key target. -/
def contains (s : Store) (p : Value) : Bool :=
  (recLookup s.records p).isSome

/-- Python `Store.get(pkey)`: the current record content for the primary key
(`None` when absent).  Identity-map handle sharing is not modelled. -/
def get (s : Store) (p : Value) : Option Record :=
  recLookup s.records p

/-- Python `Store.create(target)` for a dict target that already carries a
non-`None` primary key.  (`pkey_factory` otherwise draws a random
`uuid4().hex`, which a pure model cannot produce; every claim below
creates records with explicit primary keys.)  The record is stored in
the primary table and every one of its field names — including the
primary-key field — is handed to `Indexer.insert`. -/
def create (s : Store) (target : Record) : Option (Store × Record) :=
  match target.lookup s.pkey_name with
  | Option.none => Option.none
  | some p =>
      if p = .none then Option.none
      else
        let record := target.set s.pkey_name p
        let s := { s with records := recSet s.records p record }
        match s.indexer.insert record record.fields with
        | Option.none => Option.none
        | some ix => some ({ s with indexer := ix }, record)

/-- Python `Store.create_many(targets)`, element-wise. -/
def createMany (s : Store) (targets : List Record) : Option Store :=
  match targets with
  | [] => some s
  | t :: rest =>
      match s.create t with
      | Option.none => Option.none
      | some (s, _) => createMany s rest

/-- Python `Store.update(target, keys)`: resolve the primary key, snapshot the
stored record, apply the incoming fields and refresh the indices for
`keys`.  NB the source's "update only certain keys" branch filters the
incoming items with `if k in record` — a test against the *incoming*
record rather than `keys` — so every incoming field is applied
regardless of `keys`; the filter is reproduced verbatim here. -/
def update (s : Store) (record : Record) (keys : Option (List String)) :
    Option Store :=
  match record.lookup s.pkey_name with
  | Option.none => Option.none
  | some pkey =>
      match recLookup s.records pkey with
      | Option.none => Option.none
      | some existing =>
          let ks : List String :=
            match keys with
            | Option.none => record.fields
            | some l => if l.isEmpty then record.fields else l
          let old_state := existing
          let newRec :=
            if ks.isEmpty then existing.updateWith record
            else existing.updateWith
              (record.filter (fun kv => (record.lookup kv.1).isSome))
          let s := { s with records := recSet s.records pkey newRec }
          match s.indexer.update old_state newRec ks with
          | Option.none => Option.none
          | some ix => some { s with indexer := ix }

/-- Python `Store.update_many(targets)`: element-wise update, silently skipping
primary keys not present in the table. -/
def updateMany (s : Store) (targets : List Record) : Option Store :=
  match targets with
  | [] => some s
  | t :: rest =>
      match t.lookup s.pkey_name with
      | Option.none => Option.none
      | some pkey =>
          if (recLookup s.records pkey).isSome then
            match s.update t Option.none with
            | Option.none => Option.none
            | some s => updateMany s rest
          else updateMany s rest

/-- Python `Store.delete(target, keys=None)` outside any transaction, for a
primary-key target.  With `keys` absent the record is popped and fully
unindexed; with `keys` given the named fields are set to `None` in
place and the indices refreshed; an absent primary key is a no-op. -/
def delete (s : Store) (p : Value) (keys : Option (List String)) : Option Store :=
  match recLookup s.records p with
  | Option.none => some s
  | some record =>
      match keys with
      | Option.none =>
          let s := { s with records := recDel s.records p }
          match s.indexer.remove record Option.none with
          | Option.none => Option.none
          | some ix => some { s with indexer := ix }
      | some ks =>
          if ks.isEmpty then
            let s := { s with records := recDel s.records p }
            match s.indexer.remove record Option.none with
            | Option.none => Option.none
            | some ix => some { s with indexer := ix }
          else
            let old_record := record
            let newRec := ks.foldl
              (fun acc k => if (acc.lookup k).isSome then acc.set k .none else acc)
              record
            let s := { s with records := recSet s.records p newRec }
            match s.indexer.update old_record newRec ks with
            | Option.none => Option.none
            | some ix => some { s with indexer := ix }

/-- Python `Store.delete_many(pkeys)` with no `keys`: element-wise full delete. -/
def deleteMany (s : Store) (ps : List Value) : Option Store :=
  match ps with
  | [] => some s
  | p :: rest =>
      match s.delete p Option.none with
      | Option.none => Option.none
      | some s => deleteMany s rest

/-- Python `Store.clear()`. -/
def clear (s : Store) : Store :=
  { s with records := [], indexer := ⟨s.pkey_name, [], []⟩ }

end Store

/-! ## Predicates (`src/store/predicate.py` and `src/store/symbol.py`)

Two distinct class hierarchies exist in the source.  The evaluator in
`predicate.py` dispatches with `isinstance` on its own
`ConditionalExpression` / `BooleanExpression` classes, while the fluent
builder in `symbol.py` (`SymbolicAttribute.__eq__` etc.) constructs
nodes of `symbol.py`'s unrelated `Comparison` / `LogicalOperation`
classes.  The sum type below carries all four node kinds so that the
evaluator's dynamic class dispatch can be modelled faithfully: a node
from the `symbol.py` hierarchy falls through both `isinstance` tests. -/

/-- A predicate-tree node.  Operator tags are the strings produced by
`OP_CODE = Enum.of_strings('EQ','NE','LT','GT','GE','LE','IN','NOT_IN',
'AND','OR')`. -/
inductive PredNode where
  | conditional (op_code : String) (key : String) (value : Value)
  | boolean (op_code : String) (lhs rhs : PredNode)
  | symComparison (op : String) (key : String) (value : Value)
  | symLogical (op : String) (lhs rhs : PredNode)
deriving Repr, DecidableEq

/-- Python `symbol.py`, `SymbolicAttribute.__eq__`: `Comparison(OP_CODE.EQ,
self, value)` — the right-hand value is stored as given, uncoerced. -/
def SymbolicAttribute.eq (key : String) (value : Value) : PredNode :=
  .symComparison ("EQ") key value

/-- Python `symbol.py`, `SymbolicAttribute.__le__`. -/
def SymbolicAttribute.le (key : String) (value : Value) : PredNode :=
  .symComparison ("LE") key value

/-- Python `bisect.bisect_left(keys, val)` on the ascending key list: the
number of keys strictly below `val`. -/
def bisectLeft (keys : List Value) (val : Value) : Nat :=
  (keys.filter (fun k => Value.vlt k val)).length

/-- Python `bisect.bisect(keys, val)` (right bisection): the number of keys
not strictly above `val`. -/
def bisectRight (keys : List Value) (val : Value) : Nat :=
  (keys.filter (fun k => !Value.vlt val k)).length

/-- The elements of the right-hand collection of an `IN` / `NOT_IN`
comparison (`set(val)`); iterating a non-iterable raises `TypeError`. -/
def valElems : Value → Option (List Value)
  | .set xs => some xs.dedup
  | .list xs => some xs.dedup
  | .tuple xs => some xs.dedup
  | _ => Option.none

/-- Python `Predicate.evaluate(store, predicate)` from `src/store/predicate.py`.
`none` for the predicate returns every primary key.  A comparison whose
field has no (or an empty) index yields `∅`.  The inequality branch
matches the tags `GE`, `GT`, `LT` and then the source's `OP_CODE.LEQ`;
`constants.py` defines no `LEQ` member, so that test can never equal the
`LE` tag carried by `≤` comparisons (however the enum resolves the
miswritten attribute), and the `assert offset is not None` that follows
fails — modelled by `.error ("AssertionError")`.  Nodes of the `symbol.py`
hierarchy fail both `isinstance` tests and fall through to the initial
`computed_ids = set()`. -/
def evaluatePred (s : Store) : PredNode → Except String (List Value)
  | .conditional op_code key val =>
      match Indexer.indicesGet s.indexer.indices key with
      | Option.none => .ok []
      | some index =>
          if index.isEmpty then .ok []
          else if op_code = "EQ" then .ok ((index.get val).getD [])
          else if op_code = "NE" then
            .ok (unionAll ((index.filter (fun kv => kv.1 ≠ val)).map (·.2)))
          else if op_code = "IN" then
            match valElems val with
            | Option.none => .error ("TypeError")
            | some elems =>
                .ok (unionAll (elems.map (fun k => (index.get k).getD [])))
          else if op_code = "NOT_IN" then
            match valElems val with
            | Option.none => .error ("TypeError")
            | some elems =>
                .ok (unionAll ((index.filter (fun kv => kv.1 ∉ elems)).map (·.2)))
          else
            let keys := index.keys
            let interval : Option (List Value) :=
              if op_code = "GE" then some (keys.drop (bisectLeft keys val))
              else if op_code = "GT" then some (keys.drop (bisectRight keys val))
              else if op_code = "LT" then some (keys.take (bisectLeft keys val))
              else if op_code = "LEQ" then some (keys.take (bisectRight keys val))
              else Option.none
            match interval with
            | Option.none => .error ("AssertionError")
            | some sel =>
                .ok (unionAll ((sel.filter (fun k => k ≠ .none)).map
                  (fun k => (index.get k).getD [])))
  | .boolean op_code lhs rhs =>
      if op_code = "AND" then
        match evaluatePred s lhs with
        | .error e => .error e
        | .ok lres =>
            if lres.isEmpty then .ok []
            else
              match evaluatePred s rhs with
              | .error e => .error e
              | .ok rres => .ok (lres.filter (· ∈ rres))
      else if op_code = "OR" then
        match evaluatePred s lhs with
        | .error e => .error e
        | .ok lres =>
            match evaluatePred s rhs with
            | .error e => .error e
            | .ok rres => .ok (lres ++ rres.filter (· ∉ lres))
      else .ok []
  | .symComparison _ _ _ => .ok []
  | .symLogical _ _ _ => .ok []

/-- The entry point of `Predicate.evaluate`: a null predicate returns
every primary key in the store. -/
def evaluate (s : Store) : Option PredNode → Except String (List Value)
  | Option.none => .ok (s.records.map (·.1))
  | some p => evaluatePred s p

/-! ## Transactions (`src/store/transaction.py`) -/

/-- Transaction state: the user-visible back store, the private front
store, and the journals of created, updated and deleted primary keys
(Python sets, modelled as duplicate-free lists). -/
structure Transaction where
  back : Store
  front : Store
  created_pkeys : List Value
  updated_pkeys : List Value
  deleted_pkeys : List Value
deriving Repr, DecidableEq

/-- Python `Store.transaction()`: a fresh transaction over a fresh front store
of the same primary-key field. -/
def Store.transaction (s : Store) : Transaction :=
  ⟨s, Store.empty s.pkey_name, [], [], []⟩

namespace Transaction

/-- Python `Transaction.clear()`: clear the front store and every journal. -/
def clear (tx : Transaction) : Transaction :=
  ⟨tx.back, tx.front.clear, [], [], []⟩

/-- Python `Transaction.rollback()`. -/
def rollback (tx : Transaction) : Transaction :=
  tx.clear

/-- Python `Transaction.create(record)`: create solely in the front store with
`transaction=self`, which journals the new primary key in
`created_pkeys`. -/
def create (tx : Transaction) (record : Record) : Option Transaction :=
  match tx.front.create record with
  | Option.none => Option.none
  | some (front, rec) =>
      match rec.lookup tx.front.pkey_name with
      | Option.none => Option.none
      | some pkey =>
          some { tx with
                 front := front
                 created_pkeys := setAdd tx.created_pkeys pkey }

/-- Python `Transaction.get(target)`: `None` for a primary key journaled as
deleted; otherwise read through the front, copying the record in from
the back store on a miss (a plain `front.create`, with no journaling). -/
def get (tx : Transaction) (p : Value) : Option (Option Record × Transaction) :=
  if p ∈ tx.deleted_pkeys then some (Option.none, tx)
  else if (Store.recLookup tx.front.records p).isSome then
    some (tx.front.get p, tx)
  else
    match tx.back.get p with
    | Option.none => some (Option.none, tx)
    | some r =>
        match tx.front.create r with
        | Option.none => Option.none
        | some (front, rec) => some (some rec, { tx with front := front })

/-- Python `Transaction.update(target, keys)`: copy the back record into the
front on a miss, then update in the front with `transaction=self`,
journaling the primary key in `updated_pkeys`. -/
def update (tx : Transaction) (record : Record) (keys : Option (List String)) :
    Option Transaction :=
  match record.lookup tx.front.pkey_name with
  | Option.none => Option.none
  | some pkey =>
      let loaded : Option Transaction :=
        if (Store.recLookup tx.front.records pkey).isSome then some tx
        else
          match tx.back.get pkey with
          | Option.none => Option.none
          | some r =>
              match tx.front.create r with
              | Option.none => Option.none
              | some (front, _) => some { tx with front := front }
      match loaded with
      | Option.none => Option.none
      | some tx =>
          match tx.front.update record keys with
          | Option.none => Option.none
          | some front =>
              some { tx with
                     front := front
                     updated_pkeys := setAdd tx.updated_pkeys pkey }

/-- Python `Transaction.delete(target, keys)`, which runs `Store.delete` on the
front with `transaction=self`.  With no `keys` the primary key is
journaled in `deleted_pkeys` and popped from the front if present.  With
`keys` given and the record present in the front, the source nulls the
fields, refreshes the front indices, and then executes
`transaction.updated_pkeys[pkey].update(keys)` — subscripting the *set*
`updated_pkeys` as if it were a mapping, an unconditional `TypeError`
(the `partially_deleted_pkeys` journal described elsewhere does not
exist in the code). -/
def delete (tx : Transaction) (p : Value) (keys : Option (List String)) :
    Except String Transaction :=
  let isFull := match keys with | Option.none => true | some l => l.isEmpty
  if isFull then
    let tx := { tx with deleted_pkeys := setAdd tx.deleted_pkeys p }
    match Store.recLookup tx.front.records p with
    | Option.none => .ok tx
    | some record =>
        let front := { tx.front with records := Store.recDel tx.front.records p }
        match front.indexer.remove record Option.none with
        | Option.none => .error ("NotHashable")
        | some ix => .ok { tx with front := { front with indexer := ix } }
  else
    match Store.recLookup tx.front.records p with
    | Option.none => .ok tx
    | some record =>
        let ks := keys.getD []
        let newRec := ks.foldl
          (fun acc k => if (acc.lookup k).isSome then acc.set k .none else acc)
          record
        let front := { tx.front with records := Store.recSet tx.front.records p newRec }
        match front.indexer.update record newRec ks with
        | Option.none => .error ("NotHashable")
        | some _ => .error ("TypeError")

/-- The `create` phase of commit: `back.create_many(front.records[pkey]
for pkey in created_pkeys)`.  The generator is consumed lazily inside
`create_many`'s loop, so each primary key is looked up in the front
table (`KeyError`, modelled `none`, if absent) and created in turn. -/
def commitCreates (front : List (Value × Record)) : Store → List Value → Option Store
  | s, [] => some s
  | s, q :: rest =>
      match Store.recLookup front q with
      | Option.none => Option.none
      | some rec =>
          match s.create rec with
          | Option.none => Option.none
          | some (s2, _) => commitCreates front s2 rest

/-- The `update` phase of commit: `back.update_many(front.records[pkey]
for pkey in updated_pkeys)`, with `update_many` silently skipping
primary keys absent from the back table. -/
def commitUpdates (front : List (Value × Record)) : Store → List Value → Option Store
  | s, [] => some s
  | s, q :: rest =>
      match Store.recLookup front q with
      | Option.none => Option.none
      | some rec =>
          match rec.lookup s.pkey_name with
          | Option.none => Option.none
          | some pkey =>
              if (Store.recLookup s.records pkey).isSome then
                match s.update rec Option.none with
                | Option.none => Option.none
                | some s2 => commitUpdates front s2 rest
              else commitUpdates front s rest

/-- Python `Transaction.commit()` with no commit callback: under the back
lock, apply full deletes, then creates for `created − deleted` sourced
lazily from the front table, then updates for `updated − deleted`, and
finally clear the transaction. -/
def commit (tx : Transaction) : Option Transaction :=
  match Store.deleteMany tx.back tx.deleted_pkeys with
  | Option.none => Option.none
  | some back =>
      let created := tx.created_pkeys.filter (· ∉ tx.deleted_pkeys)
      match commitCreates tx.front.records back created with
      | Option.none => Option.none
      | some back =>
          let updated := tx.updated_pkeys.filter (· ∉ tx.deleted_pkeys)
          match commitUpdates tx.front.records back updated with
          | Option.none => Option.none
          | some back =>
              some (Transaction.clear ⟨back, tx.front,
                tx.created_pkeys, tx.updated_pkeys, tx.deleted_pkeys⟩)

/-- Python `Transaction.__exit__`: rollback on an exceptional exit and return
`False` (the exception propagates); commit on a normal exit. -/
def exit (tx : Transaction) (excRaised : Bool) : Option (Transaction × Bool) :=
  if excRaised then some (tx.rollback, false)
  else (tx.commit).map (fun t => (t, true))

/-- The write operations a transaction body can perform, for reasoning
about whole bodies. -/
inductive TxOp where
  | create (r : Record)
  | update (r : Record) (keys : Option (List String))
  | delete (p : Value) (keys : Option (List String))
  | get (p : Value)
deriving Repr

/-- Run one body operation.  An operation that raises leaves the model
state unchanged (in the source a raising operation can leave the *front*
store partially mutated, but never touches the back store — the frame
property proved below — and rollback discards the front wholesale). -/
def applyTxOp (tx : Transaction) : TxOp → Transaction
  | .create r => (tx.create r).getD tx
  | .update r keys => (tx.update r keys).getD tx
  | .delete p keys => match tx.delete p keys with | .ok t => t | .error _ => tx
  | .get p => match tx.get p with | some (_, t) => t | Option.none => tx

/-- Run a transaction body. -/
def runOps (tx : Transaction) (ops : List TxOp) : Transaction :=
  ops.foldl applyTxOp tx

end Transaction

/-! ## Descending string ordering (`src/store/ordering.py`)

The multi-key path of `Ordering.sort` replaces a string sorted
descending by its character-wise Unicode complement, so that ascending
comparison of the complements is meant to reverse the original order.
Strings are modelled as their codepoint sequences. -/

/-- Python `max_unicode_value - ord(c)` applied character-wise
(`ordering.py`, the `ordering.desc` string branch). -/
def strComplement (s : List Nat) : List Nat :=
  s.map (fun c => 0x10FFFF - c)

/-- Python string `<`: lexicographic comparison of codepoint
sequences, where a proper prefix precedes its extensions. -/
def lexLt : List Nat → List Nat → Bool
  | _, [] => false
  | [], _ :: _ => true
  | a :: s, b :: t => if a < b then true else if b < a then false else lexLt s t

/-- Tests whether the first codepoint sequence is an initial segment of
the second. -/
def initSeg : List Nat → List Nat → Bool
  | [], _ => true
  | _ :: _, [] => false
  | a :: s, b :: t => a == b && initSeg s t

/-! ## Spec invariants as decidable checks -/

/-- Invariant (I2) of the specification as a decidable check: for every
primary key tracked by the Index Manager and every field tracked for it,
the coerced value of the stored record's current field value is a key of
that field's index and its posting set contains the primary key. -/
def I2b (s : Store) : Bool :=
  s.indexer.keys.all (fun pk =>
    pk.2.all (fun f =>
      match Store.recLookup s.records pk.1 with
      | Option.none => false
      | some record =>
          match get_hashable (record.getD f) with
          | Option.none => false
          | some w =>
              match Indexer.indicesGet s.indexer.indices f with
              | Option.none => false
              | some idx =>
                  match idx.get w with
                  | Option.none => false
                  | some ps => ps.contains pk.1))

/-- Asserts that a primary key occurs in no posting set of any entry of
an indices map. -/
def NoPostings (m : List (String × Index)) (p : Value) : Prop :=
  ∀ e ∈ m, ∀ kv ∈ e.2, p ∉ kv.2

/-- Asserts that a primary key occurs in no posting set of any index of
the Index Manager. -/
def NotPosted (ix : Indexer) (p : Value) : Prop :=
  NoPostings ix.indices p

/-! ## Concrete fixtures used to instantiate the general claims -/

/-- A one-record back store: `{id: 1, sex: "M"}` under primary key `1`
(with no secondary indices, which the isolation claim does not need). -/
def c4s : Store :=
  ⟨("id"), [(.int 1, [(("id"), .int 1), (("sex"), .str ("M"))])], ⟨("id"), [], []⟩⟩

/-- The record stored in `c4s`. -/
def c4r : Record := [(("id"), .int 1), (("sex"), .str ("M"))]

/-- An update target changing `sex` to `"F"`. -/
def c4u : Record := [(("id"), .int 1), (("sex"), .str ("F"))]

/-- The transaction state after `transaction.update(c4u)` on `c4s`. -/
def c4tx1 : Transaction :=
  ⟨c4s,
   ⟨("id"), [(.int 1, [(("id"), .int 1), (("sex"), .str ("F"))])],
    ⟨("id"), [(.int 1, [("id"), ("sex")])],
     [(("id"), [(.int 1, [.int 1])]), (("sex"), [(.str ("F"), [.int 1])])]⟩⟩,
   [], [.int 1], []⟩

/-- The transaction state after `transaction.delete(1)` on `c4s`. -/
def c4tx2 : Transaction :=
  ⟨c4s, Store.empty ("id"), [], [], [.int 1]⟩

/-- The store produced by creating `{id: 1, name: "John"}` in a fresh
store with primary-key field `id`. -/
def c2S : Store :=
  ⟨("id"), [(.int 1, [(("id"), .int 1), (("name"), .str ("John"))])],
   ⟨("id"), [(.int 1, [("id"), ("name")])],
    [(("id"), [(.int 1, [.int 1])]), (("name"), [(.str ("John"), [.int 1])])]⟩⟩

/-- The record handed back by that create. -/
def c2R : Record := [(("id"), .int 1), (("name"), .str ("John"))]

/-! ## Frame lemmas for transactions

Every transaction body operation leaves the back store untouched and
preserves the front store's primary-key field; these are the frame
facts behind the isolation and rollback claims. -/

theorem Store.create_pkey_name {s : Store} {t : Record} {s' : Store} {rec : Record}
    (h : s.create t = some (s', rec)) : s'.pkey_name = s.pkey_name := by
  simp only [Store.create] at h
  split at h
  · cases h
  · split at h
    · cases h
    · split at h
      · cases h
      · cases h; rfl

theorem Store.update_keeps_pkey_name {s : Store} {t : Record} {keys : Option (List String)}
    {s' : Store} (h : s.update t keys = some s') : s'.pkey_name = s.pkey_name := by
  simp only [Store.update] at h
  split at h
  · cases h
  · split at h
    · cases h
    · split at h
      · cases h
      · cases h; rfl

theorem Transaction.create_frame {tx : Transaction} {r : Record} {t : Transaction}
    (h : tx.create r = some t) :
    t.back = tx.back ∧ t.front.pkey_name = tx.front.pkey_name := by
  simp only [Transaction.create] at h
  split at h
  · cases h
  next front rec hcr =>
    split at h
    · cases h
    · cases h
      exact ⟨rfl, Store.create_pkey_name hcr⟩

theorem Transaction.get_frame {tx : Transaction} {p : Value} {res : Option Record}
    {t : Transaction} (h : tx.get p = some (res, t)) :
    t.back = tx.back ∧ t.front.pkey_name = tx.front.pkey_name := by
  simp only [Transaction.get] at h
  split at h
  · cases h; exact ⟨rfl, rfl⟩
  · split at h
    · cases h; exact ⟨rfl, rfl⟩
    · split at h
      · cases h; exact ⟨rfl, rfl⟩
      · split at h
        · cases h
        next front rec hcr =>
          cases h
          exact ⟨rfl, Store.create_pkey_name hcr⟩

theorem Transaction.update_frame {tx : Transaction} {r : Record}
    {keys : Option (List String)} {t : Transaction}
    (h : tx.update r keys = some t) :
    t.back = tx.back ∧ t.front.pkey_name = tx.front.pkey_name := by
  simp only [Transaction.update] at h
  split at h
  · cases h
  · split at h
    · cases h
    next tx2 hload =>
      split at h
      · cases h
      next front2 hupd =>
        cases h
        have h2 : tx2.back = tx.back ∧ tx2.front.pkey_name = tx.front.pkey_name := by
          split at hload
          · cases hload; exact ⟨rfl, rfl⟩
          · split at hload
            · cases hload
            · split at hload
              · cases hload
              next front rec hcr =>
                cases hload
                exact ⟨rfl, Store.create_pkey_name hcr⟩
        exact ⟨h2.1, (Store.update_keeps_pkey_name hupd).trans h2.2⟩

theorem Transaction.delete_frame {tx : Transaction} {p : Value}
    {keys : Option (List String)} {t : Transaction}
    (h : tx.delete p keys = .ok t) :
    t.back = tx.back ∧ t.front.pkey_name = tx.front.pkey_name := by
  simp only [Transaction.delete] at h
  split at h
  · split at h
    · cases h; exact ⟨rfl, rfl⟩
    · split at h
      · cases h
      · cases h; exact ⟨rfl, rfl⟩
  · split at h
    · cases h; exact ⟨rfl, rfl⟩
    · split at h
      · cases h
      · cases h

theorem Transaction.applyTxOp_frame (tx : Transaction) (op : Transaction.TxOp) :
    (Transaction.applyTxOp tx op).back = tx.back ∧
    (Transaction.applyTxOp tx op).front.pkey_name = tx.front.pkey_name := by
  cases op with
  | create r =>
      simp only [Transaction.applyTxOp]
      cases h : tx.create r with
      | none => exact ⟨rfl, rfl⟩
      | some t => exact Transaction.create_frame h
  | update r keys =>
      simp only [Transaction.applyTxOp]
      cases h : tx.update r keys with
      | none => exact ⟨rfl, rfl⟩
      | some t => exact Transaction.update_frame h
  | delete p keys =>
      simp only [Transaction.applyTxOp]
      cases h : tx.delete p keys with
      | error e => exact ⟨rfl, rfl⟩
      | ok t => exact Transaction.delete_frame h
  | get p =>
      simp only [Transaction.applyTxOp]
      cases h : tx.get p with
      | none => exact ⟨rfl, rfl⟩
      | some pr =>
          cases pr with
          | mk res t => exact Transaction.get_frame h

theorem Transaction.runOps_frame (ops : List Transaction.TxOp) :
    ∀ tx : Transaction,
      (Transaction.runOps tx ops).back = tx.back ∧
      (Transaction.runOps tx ops).front.pkey_name = tx.front.pkey_name := by
  induction ops with
  | nil => intro tx; exact ⟨rfl, rfl⟩
  | cons op rest ih =>
      intro tx
      have h1 := Transaction.applyTxOp_frame tx op
      have h2 := ih (Transaction.applyTxOp tx op)
      simp only [Transaction.runOps, List.foldl_cons] at *
      exact ⟨h2.1.trans h1.1, h2.2.trans h1.2⟩

theorem Store.clear_eq_empty {f : Store} {pk : String} (hf : f.pkey_name = pk) :
    f.clear = Store.empty pk := by
  cases f
  simp only [Store.clear, Store.empty] at *
  subst hf
  rfl

/-! ## Record lemmas -/

theorem Record.set_self {r : Record} {k : String} {v : Value}
    (h : r.lookup k = some v) : r.set k v = r := by
  induction r with
  | nil => simp [Record.lookup] at h
  | cons kv rest ih =>
      obtain ⟨k2, w⟩ := kv
      simp only [Record.lookup] at h
      simp only [Record.set]
      by_cases hk : k2 = k
      · rw [if_pos hk] at h
        rw [if_pos hk]
        cases h
        rfl
      · rw [if_neg hk] at h
        rw [if_neg hk, ih h]

theorem Record.lookup_isSome_of_mem {u : Record} {kv : String × Value}
    (h : kv ∈ u) : (u.lookup kv.1).isSome := by
  induction u with
  | nil => cases h
  | cons kv2 rest ih =>
      obtain ⟨k2, w⟩ := kv2
      simp only [Record.lookup]
      by_cases hk : k2 = kv.1
      · rw [if_pos hk]; rfl
      · rw [if_neg hk]
        rcases List.mem_cons.mp h with h1 | h1
        · subst h1; simp at hk
        · exact ih h1

theorem Record.filter_lookup_self (u : Record) :
    u.filter (fun kv => (u.lookup kv.1).isSome) = u :=
  List.filter_eq_self.mpr (fun kv hkv => Record.lookup_isSome_of_mem hkv)

theorem Record.fields_not_empty {u : Record} {k : String} {v : Value}
    (h : u.lookup k = some v) : u.fields.isEmpty = false := by
  cases u with
  | nil => simp [Record.lookup] at h
  | cons kv rest => rfl

/-! ## Index-presence lemmas -/

theorem Indexer.indicesGet_set_self (m : List (String × Index)) (k : String) (idx : Index) :
    Indexer.indicesGet (Indexer.indicesSet m k idx) k = some idx := by
  induction m with
  | nil => simp [Indexer.indicesSet, Indexer.indicesGet]
  | cons kv rest ih =>
      obtain ⟨k2, j⟩ := kv
      simp only [Indexer.indicesSet]
      by_cases hk : k2 = k
      · rw [if_pos hk]
        simp [Indexer.indicesGet, hk]
      · rw [if_neg hk]
        simp [Indexer.indicesGet, hk, ih]

theorem Indexer.indicesGet_set_ne (m : List (String × Index)) {k q : String}
    (idx : Index) (hq : q ≠ k) :
    Indexer.indicesGet (Indexer.indicesSet m k idx) q = Indexer.indicesGet m q := by
  induction m with
  | nil =>
      simp only [Indexer.indicesSet, Indexer.indicesGet]
      rw [if_neg (fun hk => hq hk.symm)]
  | cons kv rest ih =>
      obtain ⟨k2, j⟩ := kv
      simp only [Indexer.indicesSet]
      by_cases hk : k2 = k
      · rw [if_pos hk]
        simp only [Indexer.indicesGet]
        rw [if_neg (fun h2 => hq (h2.symm.trans hk)), if_neg (fun h2 => hq (h2.symm.trans hk))]
      · rw [if_neg hk]
        simp only [Indexer.indicesGet]
        by_cases h2 : k2 = q
        · rw [if_pos h2, if_pos h2]
        · rw [if_neg h2, if_neg h2, ih]

theorem Indexer.insertLoop_mono {pkey : Value} {record : Record} :
    ∀ (ks : List String) (ix ix' : Indexer),
      Indexer.insertLoop ix pkey record ks = some ix' →
      ∀ q, (Indexer.indicesGet ix.indices q).isSome = true →
        (Indexer.indicesGet ix'.indices q).isSome = true := by
  intro ks
  induction ks with
  | nil =>
      intro ix ix' h q hq
      simp only [Indexer.insertLoop] at h
      cases h
      exact hq
  | cons k rest ih =>
      intro ix ix' h q hq
      simp only [Indexer.insertLoop] at h
      split at h
      · cases h
      next v hv =>
        refine ih _ _ h q ?_
        by_cases hqk : q = k
        · subst hqk
          rw [Indexer.indicesGet_set_self]
          rfl
        · rw [Indexer.indicesGet_set_ne _ _ hqk]
          exact hq

theorem Indexer.insertLoop_mem {pkey : Value} {record : Record} :
    ∀ (ks : List String) (ix ix' : Indexer),
      Indexer.insertLoop ix pkey record ks = some ix' →
      ∀ k ∈ ks, (Indexer.indicesGet ix'.indices k).isSome = true := by
  intro ks
  induction ks with
  | nil => intro ix ix' h k hk; cases hk
  | cons k0 rest ih =>
      intro ix ix' h k hk
      simp only [Indexer.insertLoop] at h
      split at h
      · cases h
      next v hv =>
        rcases List.mem_cons.mp hk with h1 | h1
        · subst h1
          refine Indexer.insertLoop_mono rest _ _ h k ?_
          rw [Indexer.indicesGet_set_self]
          rfl
        · exact ih _ _ h k h1

theorem Indexer.insert_mem {ix : Indexer} {record : Record} {ks : List String}
    {ix' : Indexer} {k : String}
    (h : ix.insert record ks = some ix') (hk : k ∈ ks) :
    (Indexer.indicesGet ix'.indices k).isSome = true := by
  simp only [Indexer.insert] at h
  split at h
  · cases h
  next pkey hpk =>
    exact Indexer.insertLoop_mem _ _ _ h k (List.mem_dedup.mpr hk)

theorem Record.mem_fields_set_self (r : Record) (k : String) (v : Value) :
    k ∈ (r.set k v).fields := by
  induction r with
  | nil => simp [Record.set, Record.fields]
  | cons kv rest ih =>
      obtain ⟨k2, w⟩ := kv
      simp only [Record.set]
      by_cases hk : k2 = k
      · rw [if_pos hk]
        simp [Record.fields, hk]
      · rw [if_neg hk]
        simp only [Record.fields, List.map_cons]
        exact List.mem_cons_of_mem _ ih

/-! ## Posting-set membership lemmas

Each mutation of the index structures can add a primary key to a
posting set only when it is the primary key being inserted; removal
only shrinks posting sets.  These lemmas drive the no-op-commit claim. -/

theorem setAdd_cases {l : List Value} {q x : Value} (h : x ∈ setAdd l q) :
    x = q ∨ x ∈ l := by
  unfold setAdd at h
  split at h
  · exact Or.inr h
  · rcases List.mem_append.mp h with h1 | h1
    · exact Or.inr h1
    · exact Or.inl (List.mem_singleton.mp h1)

theorem setRemove_subset {l : List Value} {q x : Value} (h : x ∈ setRemove l q) :
    x ∈ l :=
  (List.mem_filter.mp h).1

theorem insertSortedBy_cases {lt : α → α → Bool} {a x : α} :
    ∀ {l : List α}, x ∈ insertSortedBy lt a l → x = a ∨ x ∈ l := by
  intro l
  induction l with
  | nil =>
      intro h
      simp only [insertSortedBy] at h
      exact Or.inl (List.mem_singleton.mp h)
  | cons b rest ih =>
      intro h
      simp only [insertSortedBy] at h
      split at h
      · rcases List.mem_cons.mp h with h1 | h1
        · exact Or.inl h1
        · exact Or.inr h1
      · rcases List.mem_cons.mp h with h1 | h1
        · exact Or.inr (h1 ▸ List.mem_cons_self b rest)
        · rcases ih h1 with h2 | h2
          · exact Or.inl h2
          · exact Or.inr (List.mem_cons_of_mem b h2)

theorem Index.get_mem {idx : Index} {k : Value} {ps : List Value}
    (h : idx.get k = some ps) : (k, ps) ∈ idx := by
  induction idx with
  | nil => simp [Index.get] at h
  | cons kv rest ih =>
      obtain ⟨k2, q⟩ := kv
      simp only [Index.get] at h
      split at h
      next hk => cases h; cases hk; exact List.mem_cons_self _ _
      next hk => exact List.mem_cons_of_mem _ (ih h)

theorem Index.setPosting_cases {idx : Index} {k : Value} {ps : List Value}
    {kv : Value × List Value} (h : kv ∈ idx.setPosting k ps) :
    kv = (k, ps) ∨ kv ∈ idx := by
  induction idx with
  | nil =>
      simp only [Index.setPosting] at h
      exact Or.inl (List.mem_singleton.mp h)
  | cons e rest ih =>
      obtain ⟨k2, q⟩ := e
      simp only [Index.setPosting] at h
      split at h
      next hk =>
        rcases List.mem_cons.mp h with h1 | h1
        · cases hk; exact Or.inl h1
        · exact Or.inr (List.mem_cons_of_mem _ h1)
      next hk =>
        rcases List.mem_cons.mp h with h1 | h1
        · exact Or.inr (h1 ▸ List.mem_cons_self _ _)
        · rcases ih h1 with h2 | h2
          · exact Or.inl h2
          · exact Or.inr (List.mem_cons_of_mem _ h2)

theorem Index.delKey_subset {idx : Index} {k : Value} {kv : Value × List Value}
    (h : kv ∈ idx.delKey k) : kv ∈ idx :=
  (List.mem_filter.mp h).1

theorem Index.addPosting_notPosted {idx : Index} {v q p : Value}
    (hidx : ∀ kv ∈ idx, p ∉ kv.2) (hq : p ≠ q) :
    ∀ kv ∈ idx.addPosting v q, p ∉ kv.2 := by
  intro kv hkv
  unfold Index.addPosting at hkv
  split at hkv
  next ps hps =>
    rcases Index.setPosting_cases hkv with h1 | h1
    · subst h1
      intro hmem
      rcases setAdd_cases hmem with h2 | h2
      · exact hq h2
      · exact hidx _ (Index.get_mem hps) h2
    · exact hidx _ h1
  next hps =>
    rcases insertSortedBy_cases hkv with h1 | h1
    · subst h1
      simpa using hq
    · exact hidx _ h1

theorem Indexer.indicesGet_mem {m : List (String × Index)} {k : String} {idx : Index}
    (h : Indexer.indicesGet m k = some idx) : (k, idx) ∈ m := by
  induction m with
  | nil => simp [Indexer.indicesGet] at h
  | cons e rest ih =>
      obtain ⟨k2, j⟩ := e
      simp only [Indexer.indicesGet] at h
      split at h
      next hk => cases h; cases hk; exact List.mem_cons_self _ _
      next hk => exact List.mem_cons_of_mem _ (ih h)

theorem Indexer.indicesSet_cases {m : List (String × Index)} {k : String}
    {idx : Index} {e : String × Index} (h : e ∈ Indexer.indicesSet m k idx) :
    e = (k, idx) ∨ e ∈ m := by
  induction m with
  | nil =>
      simp only [Indexer.indicesSet] at h
      exact Or.inl (List.mem_singleton.mp h)
  | cons e2 rest ih =>
      obtain ⟨k2, j⟩ := e2
      simp only [Indexer.indicesSet] at h
      split at h
      next hk =>
        rcases List.mem_cons.mp h with h1 | h1
        · cases hk; exact Or.inl h1
        · exact Or.inr (List.mem_cons_of_mem _ h1)
      next hk =>
        rcases List.mem_cons.mp h with h1 | h1
        · exact Or.inr (h1 ▸ List.mem_cons_self _ _)
        · rcases ih h1 with h2 | h2
          · exact Or.inl h2
          · exact Or.inr (List.mem_cons_of_mem _ h2)

theorem Indexer.indicesDel_subset {m : List (String × Index)} {k : String}
    {e : String × Index} (h : e ∈ Indexer.indicesDel m k) : e ∈ m :=
  (List.mem_filter.mp h).1

theorem NoPostings.indicesSet {m : List (String × Index)} {k : String}
    {idx : Index} {p : Value} (hm : NoPostings m p)
    (hidx : ∀ kv ∈ idx, p ∉ kv.2) :
    NoPostings (Indexer.indicesSet m k idx) p := by
  intro e he
  rcases Indexer.indicesSet_cases he with h1 | h1
  · subst h1; exact hidx
  · exact hm e h1

theorem NoPostings.indicesDel {m : List (String × Index)} {k : String}
    {p : Value} (hm : NoPostings m p) :
    NoPostings (Indexer.indicesDel m k) p :=
  fun e he => hm e (Indexer.indicesDel_subset he)

theorem Indexer.insertLoop_notPosted {pkey p : Value} {record : Record}
    (hne : p ≠ pkey) :
    ∀ (ks : List String) (ix ix' : Indexer),
      Indexer.insertLoop ix pkey record ks = some ix' →
      NoPostings ix.indices p → NoPostings ix'.indices p := by
  intro ks
  induction ks with
  | nil =>
      intro ix ix' h hm
      simp only [Indexer.insertLoop] at h
      cases h
      exact hm
  | cons k rest ih =>
      intro ix ix' h hm
      obtain ⟨pn, kys, ind⟩ := ix
      simp only [Indexer.insertLoop] at h
      split at h
      · cases h
      next v hv =>
        refine ih _ _ h ?_
        refine NoPostings.indicesSet hm ?_
        refine Index.addPosting_notPosted ?_ hne
        cases hg : Indexer.indicesGet ind k with
        | none => simp
        | some idx1 => simpa using hm _ (Indexer.indicesGet_mem hg)

theorem Indexer.insertLoop_pkey_name {pkey : Value} {record : Record} :
    ∀ (ks : List String) (ix ix' : Indexer),
      Indexer.insertLoop ix pkey record ks = some ix' →
      ix'.pkey_name = ix.pkey_name := by
  intro ks
  induction ks with
  | nil =>
      intro ix ix' h
      simp only [Indexer.insertLoop] at h
      cases h; rfl
  | cons k rest ih =>
      intro ix ix' h
      obtain ⟨pn, kys, ind⟩ := ix
      simp only [Indexer.insertLoop] at h
      split at h
      · cases h
      next v hv =>
        have h2 := ih _ _ h
        exact h2

theorem Indexer.insert_notPosted {ix ix' : Indexer} {record : Record}
    {ks : List String} {p : Value}
    (h : ix.insert record ks = some ix')
    (hrec : record.lookup ix.pkey_name ≠ some p)
    (hm : NoPostings ix.indices p) : NoPostings ix'.indices p := by
  obtain ⟨pn, kys, ind⟩ := ix
  simp only [Indexer.insert] at h
  split at h
  · cases h
  next pkey hpk =>
    refine Indexer.insertLoop_notPosted ?_ _ _ _ h hm
    intro hpp
    exact hrec (hpp ▸ hpk)

theorem Indexer.insert_pkey_name {ix ix' : Indexer} {record : Record}
    {ks : List String} (h : ix.insert record ks = some ix') :
    ix'.pkey_name = ix.pkey_name := by
  obtain ⟨pn, kys, ind⟩ := ix
  simp only [Indexer.insert] at h
  split at h
  · cases h
  next pkey hpk =>
    have h2 := Indexer.insertLoop_pkey_name _ _ _ h
    exact h2

theorem Indexer.removeLoop_notPosted {pkey p : Value} {record : Record} :
    ∀ (ks : List String) (ix ix' : Indexer),
      Indexer.removeLoop ix pkey record ks = some ix' →
      NoPostings ix.indices p → NoPostings ix'.indices p := by
  intro ks
  induction ks with
  | nil =>
      intro ix ix' h hm
      simp only [Indexer.removeLoop] at h
      cases h
      exact hm
  | cons k rest ih =>
      intro ix ix' h hm
      obtain ⟨pn, kys, ind⟩ := ix
      simp only [Indexer.removeLoop] at h
      split at h
      next hg => exact ih _ _ h hm
      next index hg =>
        split at h
        · cases h
        next raw hraw =>
          split at h
          · cases h
          next v hv =>
            split at h
            next hget => exact ih _ _ h hm
            next ps hget =>
              split at h
              next hempty => exact ih _ _ h hm
              next hempty =>
                refine ih _ _ h ?_
                have hidx : ∀ kv ∈ index, p ∉ kv.2 :=
                  hm _ (Indexer.indicesGet_mem hg)
                have hdel : ∀ kv ∈ index.delKey v, p ∉ kv.2 :=
                  fun kv hkv => hidx _ (Index.delKey_subset hkv)
                have hset : ∀ kv ∈ index.setPosting v (setRemove ps pkey),
                    p ∉ kv.2 := by
                  intro kv hkv
                  rcases Index.setPosting_cases hkv with h1 | h1
                  · subst h1
                    intro hmem
                    exact hidx _ (Index.get_mem hget) (setRemove_subset hmem)
                  · exact hidx _ h1
                dsimp only
                split
                · split
                  · exact NoPostings.indicesDel hm
                  · exact NoPostings.indicesSet hm hdel
                · split
                  · exact NoPostings.indicesDel hm
                  · exact NoPostings.indicesSet hm hset

theorem Indexer.removeLoop_pkey_name {pkey : Value} {record : Record} :
    ∀ (ks : List String) (ix ix' : Indexer),
      Indexer.removeLoop ix pkey record ks = some ix' →
      ix'.pkey_name = ix.pkey_name := by
  intro ks
  induction ks with
  | nil =>
      intro ix ix' h
      simp only [Indexer.removeLoop] at h
      cases h; rfl
  | cons k rest ih =>
      intro ix ix' h
      obtain ⟨pn, kys, ind⟩ := ix
      simp only [Indexer.removeLoop] at h
      split at h
      next hg =>
        have h2 := ih _ _ h
        exact h2
      next index hg =>
        split at h
        · cases h
        next raw hraw =>
          split at h
          · cases h
          next v hv =>
            split at h
            next hget =>
              have h2 := ih _ _ h
              exact h2
            next ps hget =>
              split at h
              next hempty =>
                have h2 := ih _ _ h
                exact h2
              next hempty =>
                have h2 := ih _ _ h
                exact h2

theorem Indexer.remove_notPosted {ix ix' : Indexer} {record : Record}
    {keys : Option (List String)} {p : Value}
    (h : ix.remove record keys = some ix')
    (hm : NoPostings ix.indices p) : NoPostings ix'.indices p := by
  obtain ⟨pn, kys, ind⟩ := ix
  simp only [Indexer.remove] at h
  split at h
  · cases h
  next pkey hpk =>
    split at h
    · cases h
    next ks hks =>
      split at h
      · cases h
      next ix2 hstep =>
        have h2 : NoPostings ix2.indices p := by
          split at hstep
          · cases hstep; exact hm
          · exact Indexer.removeLoop_notPosted _ _ _ hstep hm
        split at h
        · cases h; exact h2
        · cases h; exact h2

theorem Indexer.remove_pkey_name {ix ix' : Indexer} {record : Record}
    {keys : Option (List String)} (h : ix.remove record keys = some ix') :
    ix'.pkey_name = ix.pkey_name := by
  obtain ⟨pn, kys, ind⟩ := ix
  simp only [Indexer.remove] at h
  split at h
  · cases h
  next pkey hpk =>
    split at h
    · cases h
    next ks hks =>
      split at h
      · cases h
      next ix2 hstep =>
        have h2 : ix2.pkey_name = pn := by
          split at hstep
          · cases hstep; rfl
          · have h3 := Indexer.removeLoop_pkey_name _ _ _ hstep
            exact h3
        split at h
        · cases h; exact h2
        · cases h; exact h2

theorem Indexer.update_notPosted {ix ix' : Indexer} {old_state record : Record}
    {ks : List String} {p : Value}
    (h : ix.update old_state record ks = some ix')
    (hrec : record.lookup ix.pkey_name ≠ some p)
    (hm : NoPostings ix.indices p) : NoPostings ix'.indices p := by
  simp only [Indexer.update] at h
  split at h
  · cases h
  next pkey hpk =>
    split at h
    · cases h
    next ix2 hstep =>
      have h2 : NoPostings ix2.indices p ∧ ix2.pkey_name = ix.pkey_name := by
        split at hstep
        · cases hstep; exact ⟨hm, rfl⟩
        · split at hstep
          · cases hstep
          next ix3 hrem =>
            refine ⟨Indexer.insert_notPosted hstep ?_
              (Indexer.remove_notPosted hrem hm), ?_⟩
            · rw [Indexer.remove_pkey_name hrem]
              exact hrec
            · rw [Indexer.insert_pkey_name hstep, Indexer.remove_pkey_name hrem]
      refine Indexer.insert_notPosted h ?_ h2.1
      rw [h2.2]
      exact hrec

theorem Indexer.update_pkey_name {ix ix' : Indexer} {old_state record : Record}
    {ks : List String} (h : ix.update old_state record ks = some ix') :
    ix'.pkey_name = ix.pkey_name := by
  simp only [Indexer.update] at h
  split at h
  · cases h
  next pkey hpk =>
    split at h
    · cases h
    next ix2 hstep =>
      have h2 : ix2.pkey_name = ix.pkey_name := by
        split at hstep
        · cases hstep; rfl
        · split at hstep
          · cases hstep
          next ix3 hrem =>
            rw [Indexer.insert_pkey_name hstep, Indexer.remove_pkey_name hrem]
      rw [Indexer.insert_pkey_name h, h2]

theorem Record.lookup_set_self (r : Record) (k : String) (v : Value) :
    (r.set k v).lookup k = some v := by
  induction r with
  | nil => simp [Record.set, Record.lookup]
  | cons kv rest ih =>
      obtain ⟨k2, w⟩ := kv
      simp only [Record.set]
      by_cases hk : k2 = k
      · rw [if_pos hk]
        simp [Record.lookup, hk]
      · rw [if_neg hk]
        simp [Record.lookup, hk, ih]

theorem Record.lookup_set_ne (r : Record) {k k2 : String} (v : Value)
    (hk : k2 ≠ k) : (r.set k2 v).lookup k = r.lookup k := by
  induction r with
  | nil =>
      simp only [Record.set, Record.lookup]
      rw [if_neg hk]
  | cons kv rest ih =>
      obtain ⟨k3, w⟩ := kv
      simp only [Record.set]
      by_cases h3 : k3 = k2
      · rw [if_pos h3]
        simp only [Record.lookup]
        rw [if_neg (h3 ▸ hk), if_neg (h3 ▸ hk)]
      · rw [if_neg h3]
        simp only [Record.lookup]
        by_cases h4 : k3 = k
        · rw [if_pos h4, if_pos h4]
        · rw [if_neg h4, if_neg h4, ih]

theorem Record.updateWith_lookup_not_mem {src : Record} {k : String} :
    k ∉ src.fields → ∀ dst : Record, (dst.updateWith src).lookup k = dst.lookup k := by
  induction src with
  | nil => intro _ dst; rfl
  | cons kv rest ih =>
      intro hk dst
      obtain ⟨k1, v1⟩ := kv
      simp only [Record.fields, List.map_cons, List.mem_cons, not_or] at hk
      show ((dst.set k1 v1).updateWith rest).lookup k = dst.lookup k
      rw [ih (by simpa [Record.fields] using hk.2) (dst.set k1 v1)]
      exact Record.lookup_set_ne dst v1 (fun h => hk.1 h.symm)

theorem Record.updateWith_lookup_nodup {src : Record} {k : String} {v : Value} :
    src.fields.Nodup → src.lookup k = some v →
    ∀ dst : Record, (dst.updateWith src).lookup k = some v := by
  induction src with
  | nil => intro _ h; simp [Record.lookup] at h
  | cons kv rest ih =>
      intro hnd h dst
      obtain ⟨k1, v1⟩ := kv
      simp only [Record.fields, List.map_cons, List.nodup_cons] at hnd
      simp only [Record.lookup] at h
      show ((dst.set k1 v1).updateWith rest).lookup k = some v
      by_cases hk : k1 = k
      · rw [if_pos hk] at h
        cases h
        subst hk
        rw [Record.updateWith_lookup_not_mem (by simpa [Record.fields] using hnd.1) _]
        exact Record.lookup_set_self dst _ _
      · rw [if_neg hk] at h
        exact ih hnd.2 h (dst.set k1 v1)

/-! ## Primary-table lookup lemmas -/

theorem Store.recLookup_filter_none {m : List (Value × Record)} {p : Value}
    {f : Value × Record → Bool} (h : Store.recLookup m p = Option.none) :
    Store.recLookup (m.filter f) p = Option.none := by
  induction m with
  | nil => rfl
  | cons qr rest ih =>
      obtain ⟨q, r⟩ := qr
      simp only [Store.recLookup] at h
      split at h
      · cases h
      next hq =>
        simp only [List.filter_cons]
        split
        · simp only [Store.recLookup]
          rw [if_neg hq]
          exact ih h
        · exact ih h

theorem Store.recLookup_recSet_ne (m : List (Value × Record)) (q : Value)
    (r : Record) {p : Value} (hq : p ≠ q) :
    Store.recLookup (Store.recSet m q r) p = Store.recLookup m p := by
  induction m with
  | nil =>
      simp only [Store.recSet, Store.recLookup]
      rw [if_neg (fun h => hq h.symm)]
  | cons qr rest ih =>
      obtain ⟨q2, r2⟩ := qr
      simp only [Store.recSet]
      by_cases h2 : q2 = q
      · rw [if_pos h2]
        simp only [Store.recLookup]
        rw [if_neg (fun h => hq (h.symm.trans h2)),
            if_neg (fun h => hq (h.symm.trans h2))]
      · rw [if_neg h2]
        simp only [Store.recLookup]
        by_cases h3 : q2 = p
        · rw [if_pos h3, if_pos h3]
        · rw [if_neg h3, if_neg h3, ih]

/-! ## Commit-phase preservation lemmas

For a primary key `p` absent from the back store's table and postings,
each commit phase — full deletes, creates of other primary keys, and
updates of other primary keys — keeps it absent. -/

theorem Store.delete_preserve (p : Value) {s s' : Store} {q : Value}
    (h : s.delete q Option.none = some s') :
    s'.pkey_name = s.pkey_name ∧ s'.indexer.pkey_name = s.indexer.pkey_name ∧
    (Store.recLookup s.records p = Option.none →
      Store.recLookup s'.records p = Option.none) ∧
    (NoPostings s.indexer.indices p → NoPostings s'.indexer.indices p) := by
  simp only [Store.delete] at h
  split at h
  · cases h
    exact ⟨rfl, rfl, fun hn => hn, fun hm => hm⟩
  next record hrec =>
    split at h
    · cases h
    next ix hrem =>
      cases h
      exact ⟨rfl, Indexer.remove_pkey_name hrem,
        fun hn => Store.recLookup_filter_none hn,
        fun hm => Indexer.remove_notPosted hrem hm⟩

theorem Store.deleteMany_preserve (p : Value) :
    ∀ (qs : List Value) (s s' : Store),
      Store.deleteMany s qs = some s' →
      s'.pkey_name = s.pkey_name ∧ s'.indexer.pkey_name = s.indexer.pkey_name ∧
      (Store.recLookup s.records p = Option.none →
        Store.recLookup s'.records p = Option.none) ∧
      (NoPostings s.indexer.indices p → NoPostings s'.indexer.indices p) := by
  intro qs
  induction qs with
  | nil =>
      intro s s' h
      simp only [Store.deleteMany] at h
      cases h
      exact ⟨rfl, rfl, fun hn => hn, fun hm => hm⟩
  | cons q rest ih =>
      intro s s' h
      simp only [Store.deleteMany] at h
      split at h
      · cases h
      next s2 hdel =>
        obtain ⟨h1, h2, h3, h4⟩ := Store.delete_preserve p hdel
        obtain ⟨g1, g2, g3, g4⟩ := ih s2 s' h
        exact ⟨g1.trans h1, g2.trans h2, fun hn => g3 (h3 hn), fun hm => g4 (h4 hm)⟩

theorem Store.create_preserve {s s' : Store} {t rec : Record} {q p : Value}
    (h : s.create t = some (s', rec)) (hq : t.lookup s.pkey_name = some q)
    (hqp : q ≠ p) (hpk : s.indexer.pkey_name = s.pkey_name) :
    s'.pkey_name = s.pkey_name ∧ s'.indexer.pkey_name = s.indexer.pkey_name ∧
    (Store.recLookup s.records p = Option.none →
      Store.recLookup s'.records p = Option.none) ∧
    (NoPostings s.indexer.indices p → NoPostings s'.indexer.indices p) := by
  simp only [Store.create, hq] at h
  split at h
  · cases h
  next hqn =>
    split at h
    · cases h
    next ix hins =>
      cases h
      refine ⟨rfl, Indexer.insert_pkey_name hins, ?_, ?_⟩
      · intro hn
        have h5 := Store.recLookup_recSet_ne s.records q (t.set s.pkey_name q)
          (Ne.symm hqp)
        exact h5.trans hn
      · intro hm
        refine Indexer.insert_notPosted hins ?_ hm
        rw [hpk, Record.lookup_set_self]
        intro hc
        exact hqp (Option.some.inj hc)

theorem Store.update_preserve {s s' : Store} {rec : Record} {q p : Value}
    (h : s.update rec Option.none = some s')
    (hq : rec.lookup s.pkey_name = some q)
    (hnd : rec.fields.Nodup) (hqp : q ≠ p)
    (hpk : s.indexer.pkey_name = s.pkey_name) :
    s'.pkey_name = s.pkey_name ∧ s'.indexer.pkey_name = s.indexer.pkey_name ∧
    (Store.recLookup s.records p = Option.none →
      Store.recLookup s'.records p = Option.none) ∧
    (NoPostings s.indexer.indices p → NoPostings s'.indexer.indices p) := by
  simp only [Store.update, hq] at h
  split at h
  · cases h
  next existing hex =>
    rw [Record.fields_not_empty hq] at h
    simp only [Bool.false_eq_true, if_false, Record.filter_lookup_self] at h
    split at h
    · cases h
    next ix hupd =>
      cases h
      refine ⟨rfl, Indexer.update_pkey_name hupd, ?_, ?_⟩
      · intro hn
        have h5 := Store.recLookup_recSet_ne s.records q
          (existing.updateWith rec) (Ne.symm hqp)
        exact h5.trans hn
      · intro hm
        refine Indexer.update_notPosted hupd ?_ hm
        rw [hpk, Record.updateWith_lookup_nodup hnd hq existing]
        intro hc
        exact hqp (Option.some.inj hc)

theorem commitCreates_preserve (p : Value) {front : List (Value × Record)} :
    ∀ (qs : List Value) (s s' : Store),
      Transaction.commitCreates front s qs = some s' →
      s.indexer.pkey_name = s.pkey_name →
      (∀ q ∈ qs, q ≠ p) →
      (∀ q ∈ qs, ∀ rec, Store.recLookup front q = some rec →
        rec.lookup s.pkey_name = some q) →
      Store.recLookup s.records p = Option.none →
      NoPostings s.indexer.indices p →
      Store.recLookup s'.records p = Option.none ∧
      NoPostings s'.indexer.indices p ∧
      s'.pkey_name = s.pkey_name ∧ s'.indexer.pkey_name = s.indexer.pkey_name := by
  intro qs
  induction qs with
  | nil =>
      intro s s' h _ _ _ hn hm
      simp only [Transaction.commitCreates] at h
      cases h
      exact ⟨hn, hm, rfl, rfl⟩
  | cons q rest ih =>
      intro s s' h hpk hne hlook hn hm
      simp only [Transaction.commitCreates] at h
      split at h
      · cases h
      next rec hrec =>
        split at h
        · cases h
        next s2 rec2 hcr =>
          have hq : rec.lookup s.pkey_name = some q :=
            hlook q (List.mem_cons_self q rest) rec hrec
          obtain ⟨c1, c2, c3, c4⟩ :=
            Store.create_preserve hcr hq (hne q (List.mem_cons_self q rest)) hpk
          obtain ⟨g1, g2, g3, g4⟩ := ih s2 s' h
            (c2.trans (hpk.trans c1.symm))
            (fun q2 hq2 => hne q2 (List.mem_cons_of_mem q hq2))
            (fun q2 hq2 rec3 hrec3 => by
              rw [c1]
              exact hlook q2 (List.mem_cons_of_mem q hq2) rec3 hrec3)
            (c3 hn) (c4 hm)
          exact ⟨g1, g2, g3.trans c1, g4.trans c2⟩

theorem commitUpdates_preserve (p : Value) {front : List (Value × Record)} :
    ∀ (qs : List Value) (s s' : Store),
      Transaction.commitUpdates front s qs = some s' →
      s.indexer.pkey_name = s.pkey_name →
      (∀ q ∈ qs, q ≠ p) →
      (∀ q ∈ qs, ∀ rec, Store.recLookup front q = some rec →
        rec.lookup s.pkey_name = some q ∧ rec.fields.Nodup) →
      Store.recLookup s.records p = Option.none →
      NoPostings s.indexer.indices p →
      Store.recLookup s'.records p = Option.none ∧
      NoPostings s'.indexer.indices p ∧
      s'.pkey_name = s.pkey_name ∧ s'.indexer.pkey_name = s.indexer.pkey_name := by
  intro qs
  induction qs with
  | nil =>
      intro s s' h _ _ _ hn hm
      simp only [Transaction.commitUpdates] at h
      cases h
      exact ⟨hn, hm, rfl, rfl⟩
  | cons q rest ih =>
      intro s s' h hpk hne hlook hn hm
      simp only [Transaction.commitUpdates] at h
      split at h
      · cases h
      next rec hrec =>
        split at h
        · cases h
        next pkey hpkey =>
          have hq : rec.lookup s.pkey_name = some q ∧ rec.fields.Nodup :=
            hlook q (List.mem_cons_self q rest) rec hrec
          have hpq : pkey = q := by
            have h6 := hq.1.symm.trans hpkey
            exact (Option.some.inj h6).symm
          subst hpq
          split at h
          · split at h
            · cases h
            next s2 hupd =>
              obtain ⟨c1, c2, c3, c4⟩ :=
                Store.update_preserve hupd hq.1 hq.2
                  (hne pkey (List.mem_cons_self pkey rest)) hpk
              obtain ⟨g1, g2, g3, g4⟩ := ih s2 s' h
                (c2.trans (hpk.trans c1.symm))
                (fun q2 hq2 => hne q2 (List.mem_cons_of_mem pkey hq2))
                (fun q2 hq2 rec3 hrec3 => by
                  rw [c1]
                  exact hlook q2 (List.mem_cons_of_mem pkey hq2) rec3 hrec3)
                (c3 hn) (c4 hm)
              exact ⟨g1, g2, g3.trans c1, g4.trans c2⟩
          · exact ih s s' h hpk
              (fun q2 hq2 => hne q2 (List.mem_cons_of_mem pkey hq2))
              (fun q2 hq2 rec3 hrec3 =>
                hlook q2 (List.mem_cons_of_mem pkey hq2) rec3 hrec3)
              hn hm

/-! ## The claims -/

set_option maxHeartbeats 4000000 in
/-- Claim C1.  The claim states that evaluating the equality predicate
produced by the fluent builder for a stored field value returns a set
containing the record's primary key, the comparison node carrying the
coerced right-hand value.  The code disagrees: the builder
(`symbol.py`'s `SymbolicAttribute.__eq__`) produces a node of
`symbol.py`'s `Comparison` class with the value uncoerced, the evaluator
(`predicate.py`) recognises only its own `ConditionalExpression` /
`BooleanExpression` classes, and so evaluation of a builder-made
predicate returns the empty set.  Concretely: after creating
`{id: 1, name: "John"}` the record is stored under primary key `1`, yet
the builder predicate `name == "John"` evaluates to `∅` — while a
directly-constructed `ConditionalExpression` with the same content
evaluates to `{1}`, which is what the repository's own tests and the
specification expect of the builder. -/
theorem claim_C1_builder_eq_evaluates_to_empty :
    ((Store.empty ("id")).create [(("id"), .int 1), (("name"), .str ("John"))]).map
      (fun x => (Store.recLookup x.1.records (.int 1),
                 evaluate x.1 (some (SymbolicAttribute.eq ("name") (.str ("John")))),
                 evaluate x.1 (some (.conditional ("EQ") ("name") (.str ("John")))))) =
    some (some [(("id"), .int 1), (("name"), .str ("John"))], .ok [], .ok [.int 1]) := by
  rfl

set_option maxHeartbeats 4000000 in
/-- Claim C2, counterexample.  The claim states that the primary-key
field is never a key of the Index Manager's indices map.  In the code
`Indexer.insert` (unlike the unused prototype `index.py`) does not
subtract the primary-key field from the field set, and `create` passes
`record.keys()` wholesale — so after creating `{id: 1, name: "John"}`
the index `indices["id"]` exists, with posting set `{1}` at key `1`. -/
theorem claim_C2_counterexample :
    ((Store.empty ("id")).create [(("id"), .int 1), (("name"), .str ("John"))]).map
      (fun x => Indexer.indicesGet x.1.indexer.indices ("id")) =
    some (some [(.int 1, [.int 1])]) := by
  rfl

/-- Claim C2, amended.  What actually holds is the opposite of (I4):
after any successful `create` the primary-key field is indexed like
every other field of the record — `Indexer.insert` receives
`record.keys()` wholesale and does not subtract the primary-key field
(as the unused prototype `index.py` does), so a secondary index for the
primary-key field name exists in the indices map. -/
theorem claim_C2_pkey_field_is_indexed :
    ∀ (s : Store) (t : Record) (s' : Store) (rec : Record),
      Store.create s t = some (s', rec) →
      (Indexer.indicesGet s'.indexer.indices s.pkey_name).isSome = true := by
  intro s t s' rec h
  simp only [Store.create] at h
  split at h
  · cases h
  next p hp =>
    split at h
    · cases h
    next hpn =>
      split at h
      · cases h
      next ix hins =>
        cases h
        exact Indexer.insert_mem hins (Record.mem_fields_set_self t s.pkey_name p)

set_option maxHeartbeats 4000000 in
/-- Witness for the amended claim C2: creating `{id: 1, name: "John"}`
in a fresh store yields `c2S`, whose indices map has an entry for the
primary-key field `id`. -/
theorem claim_C2_witness :
    Store.create (Store.empty ("id")) [(("id"), .int 1), (("name"), .str ("John"))] =
      some (c2S, c2R) ∧
    (Indexer.indicesGet c2S.indexer.indices ("id")).isSome = true :=
  ⟨rfl, claim_C2_pkey_field_is_indexed (Store.empty ("id"))
    [(("id"), .int 1), (("name"), .str ("John"))] c2S c2R rfl⟩

set_option maxHeartbeats 4000000 in
/-- Claim C3.  The claim states that `Store.update(target, fields=K)`
preserves invariant (I2) even when the target carries fields outside
`K`.  The code filters the incoming items with `if k in record` — a
tautology — so every incoming field is written to the stored record
while only the fields in `K` are re-indexed.  Concretely: create
`{id: 1, a: 1, b: 2}`, then update with target `{id: 1, a: 10, b: 20}`
and `fields={"a"}`.  The call returns without error, the stored record
becomes `{id: 1, a: 10, b: 20}`, and (I2) is violated: field `b` is
tracked for primary key `1` but the coerced current value `20` is not a
key of `indices["b"]` (which still maps `2 ↦ {1}`). -/
theorem claim_C3_update_violates_I2 :
    (((Store.empty ("id")).create [(("id"), .int 1), (("a"), .int 1), (("b"), .int 2)]).bind
      (fun x => x.1.update [(("id"), .int 1), (("a"), .int 10), (("b"), .int 20)]
        (some [("a")]))).map
      (fun s => (Store.recLookup s.records (.int 1),
                 Indexer.indicesGet s.indexer.indices ("b"), I2b s)) =
    some (some [(("id"), Value.int 1), (("a"), Value.int 10), (("b"), Value.int 20)],
          some [(.int 2, [.int 1])], false) := by
  rfl

set_option maxHeartbeats 4000000 in
/-- Claim C7.  The claim states that LT, LE, GT and GE comparisons
evaluate to the posting-set unions over the bisection intervals.  On a
store of three records with ages 1, 2, 3, the code indeed returns
`[0, lower_bound(2))` for `LT 2` (ids `{1}`), `[lower_bound(2), end)`
for `GE 2` (ids `{2, 3}`) and `[upper_bound(2), end)` for `GT 2`
(ids `{3}`) — but `LE 2` raises: the evaluator's fourth branch tests the
operator tag against `OP_CODE.LEQ`, a member `constants.py` never
defines (the tag carried by `≤` comparisons is `"LE"`), so no interval
branch matches and the `assert offset is not None` that follows fails. -/
theorem claim_C7_le_inequality_branch_raises :
    ((Store.empty ("id")).createMany
      [[(("id"), .int 1), (("age"), .int 1)],
       [(("id"), .int 2), (("age"), .int 2)],
       [(("id"), .int 3), (("age"), .int 3)]]).map
      (fun s =>
        (evaluate s (some (.conditional ("LT") ("age") (.int 2))),
         evaluate s (some (.conditional ("GE") ("age") (.int 2))),
         evaluate s (some (.conditional ("GT") ("age") (.int 2))),
         evaluate s (some (.conditional ("LE") ("age") (.int 2))))) =
    some (.ok [.int 1], .ok [.int 2, .int 3], .ok [.int 3],
          .error ("AssertionError")) := by
  rfl

set_option maxHeartbeats 4000000 in
/-- Claim C8.  The claim states that a transaction `delete` with a
non-null field set records the fields in a `partially_deleted_pkeys`
journal and returns without error.  No such journal exists in the code:
for a record present in the front store, `Store.delete` reaches
`transaction.updated_pkeys[pkey].update(keys)`, which subscripts the
*set* `updated_pkeys` as a mapping and raises `TypeError`.  Concretely:
create `{id: 1, a: 5}` in the back store, read it through the
transaction (loading it into the front), then delete fields `{"a"}`. -/
theorem claim_C8_partial_delete_raises_type_error :
    (((Store.empty ("id")).create [(("id"), .int 1), (("a"), .int 5)]).bind
      (fun x => (x.1.transaction).get (.int 1))).map
      (fun pr => pr.2.delete (.int 1) (some [("a")])) =
    some (.error ("TypeError")) := by
  rfl

/-- Claim C9, counterexample.  The claim states that for all strings the
character-wise complement reverses lexicographic order: `comp(s)`
precedes `comp(t)` iff `t` precedes `s`.  This fails when one string is
a proper prefix of the other: with `s = "a"` (codepoints `[97]`) and
`t = "ab"` (`[97, 98]`), `comp(s)` is a proper prefix of `comp(t)` and
so still precedes it, yet `t` does not precede `s`. -/
theorem claim_C9_counterexample :
    ¬ (lexLt (strComplement [97]) (strComplement [97, 98]) = true ↔
       lexLt [97, 98] [97] = true) := by
  decide

/-- Claim C9, amended.  For strings of codepoints bounded by `0x10FFFF`
such that neither is an initial segment of the other, the character-wise
complement does reverse lexicographic order: `comp(s)` precedes
`comp(t)` iff `t` precedes `s`.  (When one string is a proper prefix of
the other, the complement preserves — rather than reverses — their
relative order, so the descending multi-key string sort built on it
misorders prefix pairs.) -/
theorem claim_C9_complement_reverses_order_off_prefixes :
    ∀ s t : List Nat,
      (∀ c ∈ s, c ≤ 0x10FFFF) → (∀ c ∈ t, c ≤ 0x10FFFF) →
      initSeg s t = false → initSeg t s = false →
      (lexLt (strComplement s) (strComplement t) = true ↔ lexLt t s = true) := by
  intro s
  induction s with
  | nil => intro t _ _ hst _; simp [initSeg] at hst
  | cons a s ih =>
      intro t hs ht hst hts
      cases t with
      | nil => simp [initSeg] at hts
      | cons b t =>
          have ha : a ≤ 0x10FFFF := hs a (List.mem_cons_self a s)
          have hb : b ≤ 0x10FFFF := ht b (List.mem_cons_self b t)
          rcases Nat.lt_trichotomy a b with hab | hab | hab
          · have h1 : ¬ 0x10FFFF - a < 0x10FFFF - b := by omega
            have h2 : 0x10FFFF - b < 0x10FFFF - a := by omega
            have h3 : ¬ b < a := by omega
            simp [strComplement, lexLt, h1, h2, h3, hab]
          · subst hab
            simp only [initSeg, beq_self_eq_true, Bool.true_and] at hst hts
            have hmain := ih t (fun c hc => hs c (List.mem_cons_of_mem a hc))
              (fun c hc => ht c (List.mem_cons_of_mem a hc)) hst hts
            simpa [strComplement, lexLt] using hmain
          · have h1 : 0x10FFFF - a < 0x10FFFF - b := by omega
            simp [strComplement, lexLt, h1, hab]

/-- Witness for the amended claim C9 at `s = [98, 99]`, `t = [97]`. -/
theorem claim_C9_witness :
    (∀ c ∈ [98, 99], c ≤ 0x10FFFF) ∧ (∀ c ∈ [97], c ≤ 0x10FFFF) ∧
    initSeg [98, 99] [97] = false ∧ initSeg [97] [98, 99] = false ∧
    (lexLt (strComplement [98, 99]) (strComplement [97]) = true ↔
     lexLt [97] [98, 99] = true) :=
  ⟨by decide, by decide, by decide, by decide,
   claim_C9_complement_reverses_order_off_prefixes [98, 99] [97]
     (by decide) (by decide) (by decide) (by decide)⟩

/-- Claim C5.  A scoped transaction whose body raised performs
`rollback` on scope exit and the exception propagates (the `__exit__`
return value is `False`): whatever sequence of body operations ran, the
exceptional exit yields a transaction whose front store and bookkeeping
journals are empty and whose back store — records and indices alike —
is exactly the store the transaction was opened on; no back-store
mutation occurs at any point. -/
theorem claim_C5_exceptional_exit_rolls_back :
    ∀ (s : Store) (ops : List Transaction.TxOp),
      Transaction.exit (Transaction.runOps s.transaction ops) true =
        some (⟨s, Store.empty s.pkey_name, [], [], []⟩, false) := by
  intro s ops
  obtain ⟨hb, hp⟩ := Transaction.runOps_frame ops s.transaction
  simp only [Transaction.exit, if_true, Transaction.rollback, Transaction.clear]
  rw [hb, Store.clear_eq_empty hp]
  rfl

/-- Claim C4.  Transaction isolation.  For any back store holding record
`r` under primary key `p` (with `r` carrying `p` in its primary-key
field), and any update target `u` for `p`: if the transaction update
succeeds, the back store is untouched (structurally equal to the
original, records and indices included), `store.get(p)` still returns
the pre-transaction content `r`, while `transaction.get(p)` returns the
in-transaction content — `r` overwritten with every field of `u`.  And
after a transaction full `delete` of `p`, the back store is untouched
and `transaction.get(p)` returns null. -/
theorem claim_C4_transaction_isolation :
    ∀ (s : Store) (p : Value) (r u : Record) (tx1 tx2 : Transaction),
      Store.recLookup s.records p = some r →
      Record.lookup r s.pkey_name = some p →
      Record.lookup u s.pkey_name = some p →
      Transaction.update s.transaction u Option.none = some tx1 →
      Transaction.delete s.transaction p Option.none = .ok tx2 →
      (tx1.back = s ∧ Store.get tx1.back p = some r ∧
       Transaction.get tx1 p = some (some (Record.updateWith r u), tx1)) ∧
      (tx2.back = s ∧ Transaction.get tx2 p = some (Option.none, tx2)) := by
  intro s p r u tx1 tx2 hsr hrp hup hupd hdel
  constructor
  · -- the update path
    simp only [Transaction.update, Store.transaction, Store.empty, Store.recLookup,
      Option.isSome_none, Bool.false_eq_true, if_false, Store.get] at hupd
    rw [hup] at hupd
    dsimp only at hupd
    rw [hsr] at hupd
    dsimp only at hupd
    simp only [Store.create, hrp, Record.set_self hrp] at hupd
    split at hupd
    · cases hupd
    next tx0 hpn =>
      split at hpn
      · cases hpn
      next front0 rec0 hpnone =>
        cases hpn
        split at hpnone
        · cases hpnone
        next hpv =>
          split at hpnone
          · cases hpnone
          next ix hins =>
            cases hpnone
            simp only [Store.update] at hupd
            rw [hup] at hupd
            dsimp only at hupd
            simp only [Store.recSet, Store.recLookup, if_pos rfl,
              Record.fields_not_empty hup, Bool.false_eq_true, if_false,
              Record.filter_lookup_self] at hupd
            split at hupd
            · cases hupd
            next front2 hupd2 =>
              cases hupd
              refine ⟨rfl, hsr, ?_⟩
              simp only [if_true] at hupd2
              split at hupd2
              · cases hupd2
              next ix3 hix3 =>
                cases hupd2
                simp [Transaction.get, Store.recLookup, Store.get]
  · -- the delete path
    simp only [Transaction.delete, Store.transaction, Store.empty,
      Store.recLookup] at hdel
    simp only [setAdd, List.not_mem_nil, if_false, List.nil_append] at hdel
    cases hdel
    constructor
    · rfl
    · simp [Transaction.get]

set_option maxHeartbeats 4000000 in
/-- Witness for claim C4 on the fixture store `c4s`. -/
theorem claim_C4_witness :
    (c4tx1.back = c4s ∧ Store.get c4tx1.back (.int 1) = some c4r ∧
     Transaction.get c4tx1 (.int 1) =
       some (some (Record.updateWith c4r c4u), c4tx1)) ∧
    (c4tx2.back = c4s ∧
     Transaction.get c4tx2 (.int 1) = some (Option.none, c4tx2)) :=
  claim_C4_transaction_isolation c4s (.int 1) c4r c4u c4tx1 c4tx2
    rfl rfl rfl rfl rfl


/-- Claim C6.  A record created and then fully deleted within a
transaction (its primary key in both `created_pkeys` and
`deleted_pkeys`, and absent from the back store — table and postings
alike) commits to a no-op for that primary key: deletes are applied
first, and the create and update phases only replay `created − deleted`
and `updated − deleted`, so after a successful commit the back store
holds no record and no index posting for it.  The transaction is
otherwise arbitrary; the last hypothesis states the front-table
coherence that the transaction machinery maintains (a front record is
stored under its own primary-key field value, with no duplicate field
names). -/
theorem claim_C6_create_then_delete_commit_noop :
    ∀ (tx tx' : Transaction) (p : Value),
      p ∈ tx.created_pkeys → p ∈ tx.deleted_pkeys →
      Store.recLookup tx.back.records p = Option.none →
      NotPosted tx.back.indexer p →
      tx.back.indexer.pkey_name = tx.back.pkey_name →
      (∀ q, (q ∈ tx.created_pkeys ∨ q ∈ tx.updated_pkeys) →
        q ∉ tx.deleted_pkeys →
        ∀ rec, Store.recLookup tx.front.records q = some rec →
          rec.lookup tx.back.pkey_name = some q ∧ rec.fields.Nodup) →
      Transaction.commit tx = some tx' →
      Store.recLookup tx'.back.records p = Option.none ∧
      NotPosted tx'.back.indexer p := by
  intro tx tx' p hc hd hn hm hpk hcoh hcommit
  simp only [Transaction.commit] at hcommit
  split at hcommit
  · cases hcommit
  next back1 hdelm =>
    obtain ⟨d1, d2, d3, d4⟩ :=
      Store.deleteMany_preserve p tx.deleted_pkeys tx.back back1 hdelm
    split at hcommit
    · cases hcommit
    next back2 hcrm =>
      have hcr :=
        commitCreates_preserve p
          (tx.created_pkeys.filter (· ∉ tx.deleted_pkeys)) back1 back2 hcrm
          (d2.trans (hpk.trans d1.symm))
          (fun q hq => by
            have h1 := List.mem_filter.mp hq
            have h2 : q ∉ tx.deleted_pkeys := of_decide_eq_true h1.2
            intro hqp
            exact h2 (hqp ▸ hd))
          (fun q hq rec hrec => by
            have h1 := List.mem_filter.mp hq
            have h2 : q ∉ tx.deleted_pkeys := of_decide_eq_true h1.2
            rw [d1]
            exact (hcoh q (Or.inl h1.1) h2 rec hrec).1)
          (d3 hn) (d4 hm)
      obtain ⟨e1, e2, e3, e4⟩ := hcr
      split at hcommit
      · cases hcommit
      next back3 hupm =>
        have hup :=
          commitUpdates_preserve p
            (tx.updated_pkeys.filter (· ∉ tx.deleted_pkeys)) back2 back3 hupm
            (e4.trans ((d2.trans (hpk.trans d1.symm)).trans e3.symm))
            (fun q hq => by
              have h1 := List.mem_filter.mp hq
              have h2 : q ∉ tx.deleted_pkeys := of_decide_eq_true h1.2
              intro hqp
              exact h2 (hqp ▸ hd))
            (fun q hq rec hrec => by
              have h1 := List.mem_filter.mp hq
              have h2 : q ∉ tx.deleted_pkeys := of_decide_eq_true h1.2
              rw [e3, d1]
              exact hcoh q (Or.inr h1.1) h2 rec hrec)
            e1 e2
        obtain ⟨f1, f2, f3, f4⟩ := hup
        cases hcommit
        exact ⟨f1, f2⟩

/-- The transaction state after creating `{id: 7, x: 5}` and then fully
deleting primary key `7` inside a transaction over an empty back store:
the front is empty again and `7` is journaled as both created and
deleted. -/
def c6tx : Transaction :=
  ⟨Store.empty ("id"), Store.empty ("id"), [.int 7], [], [.int 7]⟩

/-- The committed state: everything still empty. -/
def c6tx2 : Transaction :=
  ⟨Store.empty ("id"), Store.empty ("id"), [], [], []⟩

set_option maxHeartbeats 4000000 in
/-- Witness for claim C6: the create-then-delete body produces `c6tx`,
whose commit succeeds and leaves no record and no posting for `7`. -/
theorem claim_C6_witness :
    Transaction.runOps (Store.empty ("id")).transaction
      [.create [(("id"), .int 7), (("x"), .int 5)], .delete (.int 7) Option.none] =
      c6tx ∧
    Transaction.commit c6tx = some c6tx2 ∧
    Store.recLookup c6tx2.back.records (.int 7) = Option.none ∧
    NotPosted c6tx2.back.indexer (.int 7) := by
  have h := claim_C6_create_then_delete_commit_noop c6tx c6tx2 (.int 7)
    (by decide) (by decide) rfl
    (by intro e he kv hkv; cases he)
    rfl
    (by
      intro q hq hnd rec hrec
      simp [c6tx, Store.empty, Store.recLookup] at hrec)
    rfl
  exact ⟨rfl, rfl, h.1, h.2⟩

/-- Claim C10.  Hashable coercion is idempotent: whenever `get_hashable`
succeeds, its output is a fixed point — dicts, lists and sets coerce to
tuples, which `is_hashable` accepts unchanged, and every other
successful input is returned as is. -/
theorem claim_C10_hashable_coercion_idempotent :
    ∀ v w : Value, get_hashable v = some w → get_hashable w = some w := by
  intro v w h
  cases v with
  | dict kvs =>
      simp only [get_hashable] at h
      cases hp : get_hashable_pairs kvs with
      | none => rw [hp] at h; exact absurd h (by simp)
      | some ps =>
          rw [hp] at h
          simp only [Option.some.injEq] at h
          subst h
          rfl
  | list xs =>
      simp only [get_hashable] at h
      cases hp : get_hashable_list xs with
      | none => rw [hp] at h; exact absurd h (by simp)
      | some ys =>
          rw [hp] at h
          simp only [Option.some.injEq] at h
          subst h
          rfl
  | set xs =>
      simp only [get_hashable] at h
      cases hp : get_hashable_list xs with
      | none => rw [hp] at h; exact absurd h (by simp)
      | some ys =>
          rw [hp] at h
          simp only [Option.some.injEq] at h
          subst h
          rfl
  | none =>
      simp only [get_hashable, is_hashable, if_true] at h
      simp only [Option.some.injEq] at h
      subst h; rfl
  | bool b =>
      simp only [get_hashable, is_hashable, if_true] at h
      simp only [Option.some.injEq] at h
      subst h; rfl
  | int n =>
      simp only [get_hashable, is_hashable, if_true] at h
      simp only [Option.some.injEq] at h
      subst h; rfl
  | str sv =>
      simp only [get_hashable, is_hashable, if_true] at h
      simp only [Option.some.injEq] at h
      subst h; rfl
  | tuple xs =>
      simp only [get_hashable, is_hashable, if_true] at h
      simp only [Option.some.injEq] at h
      subst h; rfl
  | other hb =>
      cases hb with
      | true =>
          simp only [get_hashable, is_hashable, if_true] at h
          simp only [Option.some.injEq] at h
          subst h; rfl
      | false =>
          simp [get_hashable, is_hashable] at h

/-- Witness for claim C10 on a nested dict-of-list-and-set value. -/
theorem claim_C10_witness :
    get_hashable (Value.dict [(Value.str ("b"), .list [.int 2]),
                              (Value.str ("a"), .set [.int 3, .int 1])]) =
      some (Value.tuple
        [Value.tuple [Value.str ("a"), Value.tuple [Value.int 1, Value.int 3]],
         Value.tuple [Value.str ("b"), Value.tuple [Value.int 2]]]) ∧
    get_hashable (Value.tuple
        [Value.tuple [Value.str ("a"), Value.tuple [Value.int 1, Value.int 3]],
         Value.tuple [Value.str ("b"), Value.tuple [Value.int 2]]]) =
      some (Value.tuple
        [Value.tuple [Value.str ("a"), Value.tuple [Value.int 1, Value.int 3]],
         Value.tuple [Value.str ("b"), Value.tuple [Value.int 2]]]) :=
  ⟨rfl, claim_C10_hashable_coercion_idempotent
    (Value.dict [(Value.str ("b"), .list [.int 2]),
                 (Value.str ("a"), .set [.int 3, .int 1])]) _ rfl⟩

end StoreSpec
